import Mathlib

/-!
Verification development for the Mnemosynth voice-chat demo
(`src/f5_tts/infer/infer_gradio.py`).

The Python source is shallowly embedded: each text-processing helper is
translated into an executable Lean function over `List Char` / `String`,
stateful UI callbacks become pure state-passing functions, and the external
model-inference collaborators (speech transcription, chat-reply generation,
voice synthesis) become function parameters.
-/

namespace Mnemosynth

/-! ## Character classes

The regexes in `traducir_numero_a_texto` use the ASCII class `[A-Za-z]`,
the digit class `\d` and word boundaries `\b`.  On `str` patterns CPython
resolves `\d` and the word class behind `\b` through the Unicode character
database (category Nd for `\d`; the Unicode alphanumerics plus underscore
for word characters), and `int` parses runs of arbitrary Nd digits; those
tables live in the Python runtime, outside this repository.  The scanner is
therefore parameterized by the class predicates `isDig` (for `\d`) and
`isWord` (for the `\b` word class) and by the run value `dval` (for
`int`).  `FaithfulClasses` and `FaithfulIntVal` below state the facts about
the real classes that the development uses; `Char.isDigit`, `isWordChar`
and `digitsVal` are the ASCII fragments of the real classes, used to
evaluate the concrete ASCII examples.
-/

/-- ASCII fragment of the word-character class behind `\b`: a basic latin
letter, an ASCII digit or an underscore.  (CPython's full class adds the
non-ASCII Unicode alphanumerics, e.g. `é`.) -/
def isWordChar (c : Char) : Bool :=
  c.isAlpha || c.isDigit || c == '_'

/-- Wordness of the character immediately before the current scan position
(`none` at the start of the string: there `\b` holds before a word char). -/
def isWordOpt (isWord : Char → Bool) : Option Char → Bool
  | none => false
  | some c => isWord c

/-- Does a `\b` word boundary hold between a digit and what follows?
True at end of string or when the next character is not a word character. -/
def boundaryOk (isWord : Char → Bool) : List Char → Bool
  | [] => true
  | c :: _ => !isWord c

/-- The pair matched by `re.sub(r'([A-Za-z])(\d)', r'\1 \2', texto)`: an
ASCII letter (the literal class `[A-Za-z]` stays ASCII on Unicode strings)
immediately followed by a `\d` digit. -/
def ldPair (isDig : Char → Bool) (a b : Char) : Bool := a.isAlpha && isDig b

/-- The pair matched by `re.sub(r'(\d)([A-Za-z])', r'\1 \2', texto)`:
a `\d` digit immediately followed by an ASCII letter. -/
def dlPair (isDig : Char → Bool) (a b : Char) : Bool := isDig a && b.isAlpha

/-- Either of the two pairs that get a separating space. -/
def mixPair (isDig : Char → Bool) (a b : Char) : Bool :=
  ldPair isDig a b || dlPair isDig a b

/-- One left-to-right pass of `re.sub` with a two-character pattern
`(X)(Y) -> X Y`: when the pair at the scan position matches, a space is
inserted between the two characters and the scan resumes after the pair
(regex matches are non-overlapping); otherwise the scan advances one
character. -/
def sepAdjacent (p : Char → Char → Bool) : List Char → List Char
  | [] => []
  | [c] => [c]
  | c :: c2 :: rest =>
    if p c c2 then c :: ' ' :: c2 :: sepAdjacent p rest
    else c :: sepAdjacent p (c2 :: rest)

/-- `re.sub(r'([A-Za-z])(\d)', r'\1 \2', texto)` from
`traducir_numero_a_texto`. -/
def sepLetraDigito (isDig : Char → Bool) (l : List Char) : List Char :=
  sepAdjacent (ldPair isDig) l

/-- `re.sub(r'(\d)([A-Za-z])', r'\1 \2', texto_separado)` from
`traducir_numero_a_texto`. -/
def sepDigitoLetra (isDig : Char → Bool) (l : List Char) : List Char :=
  sepAdjacent (dlPair isDig) l

/-- `int(numero)` for a run of ASCII digits: the ASCII fragment of
Python's `int`. -/
def digitsVal (l : List Char) : Nat :=
  l.foldl (fun n c => n * 10 + (c.toNat - 48)) 0

/-! ## Spanish number spelling

`traducir_numero_a_texto` calls `num2words(int(numero), lang='es')` from the
external `num2words` package, which is not part of this repository.
-/

/-- Modelled from the spec: units digit of the Spanish cardinal spelling
produced by the external `num2words` library (`lang='es'`). -/
def unidadEs (n : Nat) : String :=
  if n = 1 then "uno" else if n = 2 then "dos" else if n = 3 then "tres"
  else if n = 4 then "cuatro" else if n = 5 then "cinco" else if n = 6 then "seis"
  else if n = 7 then "siete" else if n = 8 then "ocho" else if n = 9 then "nueve"
  else ""

/-- Modelled from the spec: Spanish tens words (30-90). -/
def decenaEs (n : Nat) : String :=
  if n = 3 then "treinta" else if n = 4 then "cuarenta" else if n = 5 then "cincuenta"
  else if n = 6 then "sesenta" else if n = 7 then "setenta" else if n = 8 then "ochenta"
  else if n = 9 then "noventa" else ""

/-- Modelled from the spec: Spanish spellings for 10-19. -/
def adolescenteEs (n : Nat) : String :=
  if n = 10 then "diez" else if n = 11 then "once" else if n = 12 then "doce"
  else if n = 13 then "trece" else if n = 14 then "catorce" else if n = 15 then "quince"
  else if n = 16 then "dieciséis" else if n = 17 then "diecisiete"
  else if n = 18 then "dieciocho" else "diecinueve"

/-- Modelled from the spec: Spanish spellings for 20-29. -/
def veintiEs (n : Nat) : String :=
  if n = 20 then "veinte"
  else if n = 21 then "veintiuno" else if n = 22 then "veintidós"
  else if n = 23 then "veintitrés" else if n = 24 then "veinticuatro"
  else if n = 25 then "veinticinco" else if n = 26 then "veintiséis"
  else if n = 27 then "veintisiete" else if n = 28 then "veintiocho"
  else "veintinueve"

/-- Modelled from the spec: Spanish cardinal spelling below one hundred. -/
def hastaCienEs (n : Nat) : String :=
  if n ≤ 9 then unidadEs n
  else if n ≤ 19 then adolescenteEs n
  else if n ≤ 29 then veintiEs n
  else decenaEs (n / 10) ++ (if n % 10 = 0 then "" else " y " ++ unidadEs (n % 10))

/-- Modelled from the spec: Spanish cardinal spelling below one thousand. -/
def hastaMilEs (n : Nat) : String :=
  if n < 100 then hastaCienEs n
  else if n = 100 then "cien"
  else
    (if n / 100 = 1 then "ciento" else if n / 100 = 2 then "doscientos"
     else if n / 100 = 3 then "trescientos" else if n / 100 = 4 then "cuatrocientos"
     else if n / 100 = 5 then "quinientos" else if n / 100 = 6 then "seiscientos"
     else if n / 100 = 7 then "setecientos" else if n / 100 = 8 then "ochocientos"
     else "novecientos")
    ++ (if n % 100 = 0 then "" else " " ++ hastaCienEs (n % 100))

/-- Modelled from the spec: Spanish cardinal spelling below one million. -/
def hastaMillonEs (n : Nat) : String :=
  if n < 1000 then hastaMilEs n
  else
    (if n / 1000 = 1 then "mil" else hastaMilEs (n / 1000) ++ " mil")
    ++ (if n % 1000 = 0 then "" else " " ++ hastaMilEs (n % 1000))

/-- Modelled from the spec: the Spanish cardinal-number spelling produced by
the external `num2words` library (`num2words(n, lang='es')`), which is a
dependency, not code of this repository.  Faithful to the library below
10^12 up to apocope forms (the library writes `veintiún mil` where this
model writes `veintiuno mil`); the digit runs exercised by the claims are
single digits, where the two agree exactly. -/
def num2words_es (n : Nat) : String :=
  if n = 0 then "cero"
  else if n < 1000000 then hastaMillonEs n
  else
    (if n / 1000000 = 1 then "un millón"
     else hastaMillonEs (n / 1000000 % 1000000) ++ " millones")
    ++ (if n % 1000000 = 0 then "" else " " ++ hastaMillonEs (n % 1000000))

/-! ## The `\b\d+\b` substitution

`re.sub(r'\b\d+\b', reemplazar_numero, texto_separado)` scans the input left
to right.  At a position holding a digit whose predecessor is not a word
character (so `\b` holds), the regex greedily takes the maximal digit run;
the trailing `\b` then requires the character after the run to be a non-word
character (backtracking to a shorter run always fails, because inside a
digit run there is no boundary).  On a match the run is replaced by its
Spanish spelling and the scan resumes after the run; otherwise the scan
advances one character.  `skipping` is true while the scan moves over the
remainder of a run that has just been replaced. -/
def rnAux (isDig isWord : Char → Bool) (dval : List Char → Nat)
    (skipping : Bool) (prev : Option Char) : List Char → List Char
  | [] => []
  | c :: rest =>
    if skipping && isDig c then rnAux isDig isWord dval true prev rest
    else if isDig c && !isWordOpt isWord prev then
      if boundaryOk isWord (rest.dropWhile isDig) then
        (num2words_es (dval (c :: rest.takeWhile isDig))).data
          ++ rnAux isDig isWord dval true (some c) rest
      else c :: rnAux isDig isWord dval false (some c) rest
    else c :: rnAux isDig isWord dval false (some c) rest

/-- `re.sub(r'\b\d+\b', reemplazar_numero, texto_separado)`. -/
def reemplazarNumeros (isDig isWord : Char → Bool) (dval : List Char → Nat)
    (l : List Char) : List Char :=
  rnAux isDig isWord dval false none l

/-- `traducir_numero_a_texto` (src/f5_tts/infer/infer_gradio.py, lines
73-83), parameterized by the `\d` class, the `\b` word class and the
`int` conversion of the Python runtime: split letter-digit and digit-letter
adjacencies with a space, then replace every `\b`-bounded digit run by its
Spanish spelling.  The Python function is `traducirNum` applied to the
runtime's real class tables. -/
def traducirNum (isDig isWord : Char → Bool) (dval : List Char → Nat)
    (texto : String) : String :=
  let texto_separado := sepLetraDigito isDig texto.data
  let texto_separado2 := sepDigitoLetra isDig texto_separado
  ⟨reemplazarNumeros isDig isWord dval texto_separado2⟩

/-- `traducir_numero_a_texto` instantiated at the ASCII fragments of the
character classes; agrees with the Python function on ASCII input and is
used for concrete evaluation and for the claims whose conclusions do not
depend on the non-ASCII part of the classes. -/
def traducir_numero_a_texto (texto : String) : String :=
  traducirNum Char.isDigit isWordChar digitsVal texto

/-- Specification-side checker: does the list contain a `\b`-bounded digit
run (one that `re.sub(r'\b\d+\b', ...)` would match)?  Same scan structure
as `rnAux`. -/
def hasBoundedRunAux (isDig isWord : Char → Bool) (prev : Option Char) :
    List Char → Bool
  | [] => false
  | c :: rest =>
    if isDig c && !isWordOpt isWord prev then
      boundaryOk isWord (rest.dropWhile isDig)
        || hasBoundedRunAux isDig isWord (some c) rest
    else hasBoundedRunAux isDig isWord (some c) rest

/-- Top-level entry of `hasBoundedRunAux`. -/
def hasBoundedRun (isDig isWord : Char → Bool) (l : List Char) : Bool :=
  hasBoundedRunAux isDig isWord none l

/-- The facts about CPython's real `\d` class and `\b` word class that the
development uses: the only Nd code points below U+0100 are the ASCII digits
`0-9`; the word class restricted to ASCII is `[A-Za-z0-9_]`; and every
`\d` digit is a word character. -/
def FaithfulClasses (isDig isWord : Char → Bool) : Prop :=
  (∀ c : Char, c.toNat < 256 → isDig c = c.isDigit) ∧
  (∀ c : Char, c.toNat < 128 → isWord c = isWordChar c) ∧
  (∀ c : Char, isDig c = true → isWord c = true)

/-- The fact about Python's `int` that the examples use: on a string of
ASCII digits it is ordinary decimal evaluation. -/
def FaithfulIntVal (dval : List Char → Nat) : Prop :=
  ∀ l : List Char, (∀ c ∈ l, c.isDigit = true) → dval l = digitsVal l

/-! ## Style Segment Parser

`parse_speechtypes_text` (lines 129-151) splits the script with
`re.split(r"\{(.*?)\}", gen_text)` and then walks the alternating
text/label tokens.  The lazy group `(.*?)` never matches a newline (the
regex `.` excludes `\n`), so an opening brace forms a tag exactly when a
closing brace occurs before the next newline; the tag content is everything
up to that first closing brace.
-/

/-- One (style, text) segment produced by the parser (the Python dict
`{"style": ..., "text": ...}`). -/
structure SpeechSegment where
  style : String
  text : String
deriving DecidableEq, Repr

/-- Python `str.strip()` on a character list: drop whitespace from both
ends. -/
def stripChars (l : List Char) : List Char :=
  ((l.dropWhile Char.isWhitespace).reverse.dropWhile Char.isWhitespace).reverse

/-- The token list returned by `re.split(r"\{(.*?)\}", gen_text)`: pieces of
text alternating with captured tag labels (text first).  `acc` is the
reversed text accumulated since the last tag; `tag` is `some tacc` (reversed
tentative tag content) while scanning after an unmatched opening brace.  An
opening brace whose candidate content reaches a newline or the end of the
string is not a tag and flows back into the text. -/
def splitTagsAux (acc : List Char) (tag : Option (List Char)) : List Char → List (List Char)
  | [] =>
    match tag with
    | none => [acc.reverse]
    | some tacc => [(tacc ++ '\x7b' :: acc).reverse]
  | c :: rest =>
    match tag with
    | none =>
      if c = '\x7b' then splitTagsAux acc (some []) rest
      else splitTagsAux (c :: acc) none rest
    | some tacc =>
      if c = '\x7d' then acc.reverse :: tacc.reverse :: splitTagsAux [] none rest
      else if c = '\n' then splitTagsAux ('\n' :: (tacc ++ '\x7b' :: acc)) none rest
      else splitTagsAux acc (some (c :: tacc)) rest

/-- `re.split(r"\{(.*?)\}", gen_text)` as a token list. -/
def splitTags (l : List Char) : List (List Char) := splitTagsAux [] none l

/-- The loop of `parse_speechtypes_text`: even-indexed tokens are text
(kept, stripped, when non-empty), odd-indexed tokens are style labels
(stripped and made current). -/
def parseTokens (isText : Bool) (cur : String) : List (List Char) → List SpeechSegment
  | [] => []
  | t :: ts =>
    if isText then
      let txt := stripChars t
      if txt.isEmpty then parseTokens false cur ts
      else ⟨cur, ⟨txt⟩⟩ :: parseTokens false cur ts
    else parseTokens true ⟨stripChars t⟩ ts

/-- `parse_speechtypes_text` (lines 129-151). -/
def parse_speechtypes_text (gen_text : String) : List SpeechSegment :=
  parseTokens true "Regular" (splitTags gen_text.data)

/-! ## Conversation state

The conversation log is a list of role-tagged messages
(`conversation_state`, lines 241-248); the chatbot transcript is a list of
`(user_text, optional assistant_text)` pairs.  The external transcription
service (`preprocess_ref_audio_text`) and the chat model
(`generate_response`) are passed as function parameters.
-/

/-- Message role, the `"role"` field of the Python dicts. -/
inductive Role
  | system
  | user
  | assistant
deriving DecidableEq, Repr

/-- One entry of the conversation log (`{"role": ..., "content": ...}`). -/
structure ChatMessage where
  role : Role
  content : String
deriving DecidableEq, Repr

/-- One chatbot transcript entry: the Python tuple `(text, response)`, where
the response is `None` while the turn is pending. -/
abbrev HistEntry := String × Option String

/-- The system prompt the app starts with (line 245). -/
def default_system_prompt : String :=
  "No eres un asistente de IA, eres quien el usuario diga que eres. Debes mantenerte en personaje. Mantén tus respuestas concisas ya que serán habladas en voz alta."

/-- Initial value of `conversation_state` (lines 241-248). -/
def initial_conversation_state : List ChatMessage :=
  [⟨.system, default_system_prompt⟩]

/-- `process_audio_input` (lines 252-272).  `transcribe` models the
transcription result of `preprocess_ref_audio_text(audio_path, text)[1]`
and `generate` models `generate_response` on the updated conversation log;
both are external collaborators.  Returns the new transcript, the new
conversation log and the cleared text box value. -/
def process_audio_input (transcribe : String → String)
    (generate : List ChatMessage → String) (audio_path : Option String)
    (text : String) (history : List HistEntry)
    (conv_state : List ChatMessage) :
    List HistEntry × List ChatMessage × String :=
  if audio_path.isNone && (stripChars text.data).isEmpty then
    (history, conv_state, "")
  else
    let text2 := match audio_path with
      | some p => transcribe p
      | none => text
    if (stripChars text2.data).isEmpty then (history, conv_state, "")
    else
      let conv1 := conv_state ++ [⟨.user, text2⟩]
      let hist1 := history ++ [(text2, (none : Option String))]
      let response := generate conv1
      let conv2 := conv1 ++ [⟨.assistant, response⟩]
      let hist2 := hist1.dropLast ++ [(text2, some response)]
      (hist2, conv2, "")

/-- `clear_conversation` (lines 296-303): empty transcript, fresh log with
the default system prompt. -/
def clear_conversation : List HistEntry × List ChatMessage :=
  ([], [⟨.system, default_system_prompt⟩])

/-- `update_system_prompt` (lines 305-308): empty transcript, fresh log
with the new prompt. -/
def update_system_prompt (new_prompt : String) : List HistEntry × List ChatMessage :=
  ([], [⟨.system, new_prompt⟩])

/-- `generate_audio_response` (lines 274-294).  `synth` models the call to
`infer` (reference audio, reference text, reply text, remove-silence flag);
its result type is abstract because the audio buffer is produced by the
external synthesis stack.  The transcript is returned unchanged alongside
the optional audio, making the function's effect on the conversation
explicit: there is none. -/
def generate_audio_response {α : Type} (synth : String → String → String → Bool → α)
    (history : List HistEntry) (ref_audio : Option String) (ref_text : String)
    (remove_silence : Bool) : List HistEntry × Option α :=
  match ref_audio, history.getLast? with
  | some ra, some (_, some resp) =>
    if resp = "" then (history, none)
    else (history, some (synth ra ref_text resp remove_silence))
  | _, _ => (history, none)

/-- The event chain wired to `text_input_chat.submit` / `send_btn_chat`
(lines 326-353): `process_audio_input` feeds the chatbot and conversation
state, then `generate_audio_response` produces only the audio output. -/
def chat_turn {α : Type} (transcribe : String → String)
    (generate : List ChatMessage → String)
    (synth : String → String → String → Bool → α) (audio_path : Option String)
    (text : String) (history : List HistEntry) (conv_state : List ChatMessage)
    (ref_audio : Option String) (ref_text : String) (remove_silence : Bool) :
    List HistEntry × List ChatMessage × Option α :=
  let r := process_audio_input transcribe generate audio_path text history conv_state
  let g := generate_audio_response synth r.1 ref_audio ref_text remove_silence
  (g.1, r.2.1, g.2)

/-- States of the conversation reachable through the UI operations: the
initial state, the result of `clear_conversation`, the result of
`update_system_prompt`, and one `process_audio_input` turn applied to a
reachable state (with arbitrary external collaborators and inputs). -/
inductive ReachableConv : List HistEntry → List ChatMessage → Prop
  | init : ReachableConv [] initial_conversation_state
  | clear : ReachableConv clear_conversation.1 clear_conversation.2
  | update (p : String) :
      ReachableConv (update_system_prompt p).1 (update_system_prompt p).2
  | step (tr : String → String) (gen : List ChatMessage → String)
      (audio : Option String) (text : String) (h : List HistEntry)
      (c : List ChatMessage) :
      ReachableConv h c →
      ReachableConv (process_audio_input tr gen audio text h c).1
        (process_audio_input tr gen audio text h c).2.1

/-- Conversation log begins with exactly one system message. -/
def beginsWithOneSystem : List ChatMessage → Prop
  | [] => False
  | m :: ms => m.role = .system ∧ ∀ m' ∈ ms, m'.role ≠ .system

/-- Every transcript entry except possibly the most recent one has its
assistant text filled in. -/
def onlyLastPending (h : List HistEntry) : Prop :=
  ∀ e ∈ h.dropLast, e.2 ≠ none

/-- The §3 invariant: one leading system message, transcript length locked
to the conversation log length, pending turn only at the end. -/
def conv_invariant (h : List HistEntry) (c : List ChatMessage) : Prop :=
  beginsWithOneSystem c ∧ h.length = (c.length - 1) / 2 ∧ onlyLastPending h

/-! ## Spec-modelled Conversation State operation

The specification (§4.3) describes a standalone `complete_turn` operation
and an `InvalidStateError`; the source has no such standalone operation
(user turn and completion are fused inside `process_audio_input`), so the
operation is modelled from the spec.
-/

/-- Modelled from the spec (§4.3, §7): the error raised on a
programming-contract violation in Conversation State transitions. -/
inductive InvalidStateError
  | invalidState
deriving DecidableEq, Repr

/-- Is there a pending transcript entry (last entry with empty assistant
text)? -/
def hasPendingEntry (h : List HistEntry) : Bool :=
  match h.getLast? with
  | some (_, none) => true
  | _ => false

/-- Modelled from the spec (§4.3): `complete_turn(log, reply_text)` appends
an assistant message and fills the pending transcript entry's assistant
text; with no pending entry it fails with `InvalidStateError`. -/
def complete_turn (history : List HistEntry) (conv : List ChatMessage)
    (reply : String) :
    Except InvalidStateError (List HistEntry × List ChatMessage) :=
  match history.getLast? with
  | some (u, none) =>
    .ok (history.dropLast ++ [(u, some reply)], conv ++ [⟨.assistant, reply⟩])
  | _ => .error .invalidState

/-! ## Text shaping in `infer`

Lines 93-99 of `infer`: force a leading space and a trailing `". "`, then
lowercase, then run the number normalizer; the result is the `gen_text`
handed to `infer_process`.
-/

/-- Python `str.lower()` on one character, modelled on the basic latin
range by Lean's own `Char.toLower` (characters outside `A`-`Z` are kept
unchanged). -/
def lowerChar (c : Char) : Char := Char.toLower c

/-- Does the character list end with `". "` (Python
`gen_text.endswith(". ")`)? -/
def endsDotSpace (l : List Char) : Bool :=
  match l.reverse with
  | c1 :: c2 :: _ => c1 == ' ' && c2 == '.'
  | _ => false

/-- Lines 93-96 of `infer`: force a leading space and a trailing `". "`. -/
def padGenText (l : List Char) : List Char :=
  let l1 := if l.head? = some ' ' then l else ' ' :: l
  if endsDotSpace l1 then l1 else l1 ++ ['.', ' ']

/-- Lines 93-99 of `infer`: the `gen_text` value passed on to
`infer_process` (the voice-synthesis collaborator). -/
def infer_gen_text (gen_text : String) : String :=
  traducir_numero_a_texto ⟨(padGenText gen_text.data).map lowerChar⟩

/-- A character fit for a spelled-out number: not an ASCII digit, not an
uppercase ASCII letter, and inside Latin-1 (so the real `\d` class, whose
only sub-U+0100 members are the ASCII digits, also excludes it). -/
abbrev okChar (c : Char) : Bool :=
  !c.isDigit && !c.isUpper && decide (c.toNat < 256)

/-- All characters of the string are `okChar`. -/
abbrev okStr (s : String) : Prop := s.data.all okChar = true

/-! ## Character-class facts -/

/-- A digit is not a letter (the ASCII ranges are disjoint). -/
theorem digit_not_alpha {c : Char} (h : c.isDigit = true) : c.isAlpha = false := by
  have e48 : (UInt32.toBitVec 48).toNat = 48 := rfl
  have e57 : (UInt32.toBitVec 57).toNat = 57 := rfl
  have e65 : (UInt32.toBitVec 65).toNat = 65 := rfl
  have e90 : (UInt32.toBitVec 90).toNat = 90 := rfl
  have e97 : (UInt32.toBitVec 97).toNat = 97 := rfl
  have e122 : (UInt32.toBitVec 122).toNat = 122 := rfl
  simp only [Char.isDigit, Char.isAlpha, Char.isUpper, Char.isLower,
    Bool.and_eq_true, Bool.or_eq_false_iff, Bool.and_eq_false_iff,
    decide_eq_true_eq, decide_eq_false_iff_not, not_le,
    UInt32.le_def, UInt32.lt_def, BitVec.le_def, BitVec.lt_def] at *
  omega

/-- A digit is a word character (ASCII fragment). -/
theorem digit_word {c : Char} (h : c.isDigit = true) : isWordChar c = true := by
  simp [isWordChar, h]

/-- An ASCII letter has a code point below 128. -/
theorem alpha_ascii {c : Char} (h : c.isAlpha = true) : c.toNat < 128 := by
  have e65 : (UInt32.toBitVec 65).toNat = 65 := rfl
  have e90 : (UInt32.toBitVec 90).toNat = 90 := rfl
  have e97 : (UInt32.toBitVec 97).toNat = 97 := rfl
  have e122 : (UInt32.toBitVec 122).toNat = 122 := rfl
  simp only [Char.isAlpha, Char.isUpper, Char.isLower, Bool.or_eq_true,
    Bool.and_eq_true, decide_eq_true_eq, GE.ge,
    UInt32.le_def, BitVec.le_def, e65, e90, e97, e122] at h
  simp only [Char.toNat, UInt32.toNat]
  omega

/-- An ASCII digit has a code point below 128. -/
theorem ascii_digit_lt {c : Char} (h : c.isDigit = true) : c.toNat < 128 := by
  have e48 : (UInt32.toBitVec 48).toNat = 48 := rfl
  have e57 : (UInt32.toBitVec 57).toNat = 57 := rfl
  simp only [Char.isDigit, Bool.and_eq_true, decide_eq_true_eq, GE.ge,
    UInt32.le_def, BitVec.le_def, e48, e57] at h
  simp only [Char.toNat, UInt32.toNat]
  omega

/-! ## Consequences of `FaithfulClasses` -/

/-- The real `\d` class rejects the space. -/
theorem fc_space_dig {isDig isWord : Char → Bool}
    (hF : FaithfulClasses isDig isWord) : isDig ' ' = false := by
  rw [hF.1 ' ' (by decide)]
  decide

/-- The real `\d` class rejects the dot. -/
theorem fc_dot_dig {isDig isWord : Char → Bool}
    (hF : FaithfulClasses isDig isWord) : isDig '.' = false := by
  rw [hF.1 '.' (by decide)]
  decide

/-- An ASCII letter is not a `\d` digit. -/
theorem fc_alpha_not_dig {isDig isWord : Char → Bool}
    (hF : FaithfulClasses isDig isWord) {c : Char} (h : c.isAlpha = true) :
    isDig c = false := by
  rw [hF.1 c (lt_trans (alpha_ascii h) (by omega))]
  by_contra hd
  rw [Bool.not_eq_false] at hd
  rw [digit_not_alpha hd] at h
  exact absurd h (by simp)

/-- A `\d` digit is not an ASCII letter. -/
theorem fc_dig_not_alpha {isDig isWord : Char → Bool}
    (hF : FaithfulClasses isDig isWord) {c : Char} (h : isDig c = true) :
    c.isAlpha = false := by
  by_contra ha
  rw [Bool.not_eq_false] at ha
  rw [fc_alpha_not_dig hF ha] at h
  exact absurd h (by simp)

/-- A `\d` digit is a word character. -/
theorem fc_dig_word {isDig isWord : Char → Bool}
    (hF : FaithfulClasses isDig isWord) {c : Char} (h : isDig c = true) :
    isWord c = true :=
  hF.2.2 c h

/-- An ASCII letter is a word character. -/
theorem fc_alpha_word {isDig isWord : Char → Bool}
    (hF : FaithfulClasses isDig isWord) {c : Char} (h : c.isAlpha = true) :
    isWord c = true := by
  rw [hF.2.1 c (alpha_ascii h)]
  simp [isWordChar, h]

/-- A non-word character is neither a `\d` digit nor an ASCII letter. -/
theorem fc_not_word {isDig isWord : Char → Bool}
    (hF : FaithfulClasses isDig isWord) {c : Char} (h : isWord c = false) :
    isDig c = false ∧ c.isAlpha = false := by
  constructor
  · by_contra hd
    rw [Bool.not_eq_false] at hd
    rw [fc_dig_word hF hd] at h
    exact absurd h (by simp)
  · by_contra ha
    rw [Bool.not_eq_false] at ha
    rw [fc_alpha_word hF ha] at h
    exact absurd h (by simp)

/-- The ASCII fragments satisfy `FaithfulClasses`. -/
theorem faithful_ascii : FaithfulClasses Char.isDigit isWordChar :=
  ⟨fun _ _ => rfl, fun _ _ => rfl, fun _ h => digit_word h⟩

/-- The ASCII decimal evaluation satisfies `FaithfulIntVal`. -/
theorem faithful_val_ascii : FaithfulIntVal digitsVal :=
  fun _ _ => rfl

/-! ## Lemmas about the pair-separating passes -/

/-- The first output character of a `re.sub` separating pass is the first
input character. -/
theorem sep_head (p : Char → Char → Bool) (l : List Char) :
    (sepAdjacent p l).head? = l.head? := by
  match l with
  | [] => rfl
  | [c] => rfl
  | c :: c2 :: r => unfold sepAdjacent; split <;> rfl

/-- After one separating pass, no adjacent pair matches the pattern, given
that a space can be neither side of a match and the second character of a
match can never start one. -/
theorem sep_chain (p : Char → Char → Bool) (hsp1 : ∀ c, p c ' ' = false)
    (hsp2 : ∀ c, p ' ' c = false)
    (hskip : ∀ a b x, p a b = true → p b x = false) (l : List Char) :
    List.Chain' (fun a b => p a b = false) (sepAdjacent p l) := by
  induction l using sepAdjacent.induct p with
  | case1 => simp [sepAdjacent]
  | case2 c => simp [sepAdjacent]
  | case3 c c2 rest h ih =>
    rw [sepAdjacent, if_pos h, List.chain'_cons, List.chain'_cons]
    exact ⟨hsp1 c, hsp2 c2, List.chain'_cons'.mpr ⟨fun y _ => hskip c c2 y h, ih⟩⟩
  | case4 c c2 rest h ih =>
    rw [sepAdjacent, if_neg h]
    refine List.chain'_cons'.mpr ⟨fun y hy => ?_, ih⟩
    rw [sep_head] at hy
    obtain rfl : y = c2 := by simpa using hy.symm
    simpa using h

/-- A separating pass for pattern `q` cannot create a `p`-match when the
input had none, for any `p` that never matches against a space. -/
theorem sep_chain_preserve (p q : Char → Char → Bool)
    (hsp1 : ∀ c, p c ' ' = false) (hsp2 : ∀ c, p ' ' c = false) (l : List Char)
    (hl : List.Chain' (fun a b => p a b = false) l) :
    List.Chain' (fun a b => p a b = false) (sepAdjacent q l) := by
  induction l using sepAdjacent.induct q with
  | case1 => exact hl
  | case2 c => exact hl
  | case3 c c2 rest h ih =>
    rw [sepAdjacent, if_pos h, List.chain'_cons, List.chain'_cons]
    rw [List.chain'_cons] at hl
    obtain ⟨-, hl2⟩ := hl
    obtain ⟨hjunc, hl3⟩ := List.chain'_cons'.mp hl2
    refine ⟨hsp1 c, hsp2 c2, List.chain'_cons'.mpr ⟨fun y hy => ?_, ih hl3⟩⟩
    rw [sep_head] at hy
    exact hjunc y hy
  | case4 c c2 rest h ih =>
    rw [sepAdjacent, if_neg h]
    rw [List.chain'_cons] at hl
    refine List.chain'_cons'.mpr ⟨fun y hy => ?_, ih hl.2⟩
    rw [sep_head] at hy
    obtain rfl : y = c2 := by simpa using hy.symm
    exact hl.1

/-- A separating pass is the identity when no adjacent pair matches. -/
theorem sep_id (p : Char → Char → Bool) (l : List Char)
    (hl : List.Chain' (fun a b => p a b = false) l) : sepAdjacent p l = l := by
  induction l using sepAdjacent.induct p with
  | case1 => rfl
  | case2 c => rfl
  | case3 c c2 rest h ih =>
    rw [List.chain'_cons] at hl
    rw [hl.1] at h
    exact absurd h (by simp)
  | case4 c c2 rest h ih =>
    rw [sepAdjacent, if_neg h, ih hl.tail]

/-- Characters of a separating pass output: input characters and spaces. -/
theorem sep_mem (p : Char → Char → Bool) (l : List Char) (c : Char)
    (hc : c ∈ sepAdjacent p l) : c ∈ l ∨ c = ' ' := by
  induction l using sepAdjacent.induct p with
  | case1 => simp [sepAdjacent] at hc
  | case2 c0 =>
    rw [sepAdjacent] at hc
    exact .inl hc
  | case3 c0 c2 rest h ih =>
    rw [sepAdjacent, if_pos h] at hc
    simp only [List.mem_cons] at hc ⊢
    rcases hc with rfl | rfl | rfl | hc
    · exact .inl (.inl rfl)
    · exact .inr rfl
    · exact .inl (.inr (.inl rfl))
    · rcases ih hc with hm | hs
      · exact .inl (.inr (.inr hm))
      · exact .inr hs
  | case4 c0 c2 rest h ih =>
    rw [sepAdjacent, if_neg h] at hc
    simp only [List.mem_cons] at hc ⊢
    rcases hc with rfl | hc
    · exact .inl (.inl rfl)
    · rcases ih hc with hm | hs
      · simp only [List.mem_cons] at hm
        exact .inl (.inr hm)
      · exact .inr hs

/-- Facts that let the two concrete patterns satisfy the space conditions:
`ldPair` against spaces. -/
theorem ldPair_space1 {isDig isWord : Char → Bool}
    (hF : FaithfulClasses isDig isWord) (c : Char) :
    ldPair isDig c ' ' = false := by
  simp [ldPair, fc_space_dig hF]

/-- `ldPair` with a space on the left. -/
theorem ldPair_space2 {isDig : Char → Bool} (c : Char) :
    ldPair isDig ' ' c = false := by
  simp [ldPair]

/-- `dlPair` against a space on the right. -/
theorem dlPair_space1 {isDig : Char → Bool} (c : Char) :
    dlPair isDig c ' ' = false := by
  simp [dlPair]

/-- `dlPair` with a space on the left. -/
theorem dlPair_space2 {isDig isWord : Char → Bool}
    (hF : FaithfulClasses isDig isWord) (c : Char) :
    dlPair isDig ' ' c = false := by
  simp [dlPair, fc_space_dig hF]

/-- The digit ending an `ldPair` match can never start another one. -/
theorem ldPair_skip {isDig isWord : Char → Bool}
    (hF : FaithfulClasses isDig isWord) (a b x : Char)
    (h : ldPair isDig a b = true) : ldPair isDig b x = false := by
  simp only [ldPair, Bool.and_eq_true] at h
  simp [ldPair, fc_dig_not_alpha hF h.2]

/-- The letter ending a `dlPair` match can never start another one. -/
theorem dlPair_skip {isDig isWord : Char → Bool}
    (hF : FaithfulClasses isDig isWord) (a b x : Char)
    (h : dlPair isDig a b = true) : dlPair isDig b x = false := by
  simp only [dlPair, Bool.and_eq_true] at h
  simp [dlPair, fc_alpha_not_dig hF h.2]

/-- Two chains over the same list combine pointwise. -/
theorem chain_and {R S : Char → Char → Prop} {l : List Char}
    (h1 : List.Chain' R l) (h2 : List.Chain' S l) :
    List.Chain' (fun a b => R a b ∧ S a b) l := by
  rw [List.chain'_iff_get] at *
  exact fun i hi => ⟨h1 i hi, h2 i hi⟩

/-- After the two separating passes of `traducir_numero_a_texto`, no
letter-digit or digit-letter adjacency remains. -/
theorem sep12_mix {isDig isWord : Char → Bool}
    (hF : FaithfulClasses isDig isWord) (l : List Char) :
    List.Chain' (fun a b => mixPair isDig a b = false)
      (sepDigitoLetra isDig (sepLetraDigito isDig l)) := by
  have h1 : List.Chain' (fun a b => ldPair isDig a b = false)
      (sepLetraDigito isDig l) :=
    sep_chain (ldPair isDig) (ldPair_space1 hF) ldPair_space2 (ldPair_skip hF) l
  have h2 : List.Chain' (fun a b => ldPair isDig a b = false)
      (sepDigitoLetra isDig (sepLetraDigito isDig l)) :=
    sep_chain_preserve (ldPair isDig) (dlPair isDig) (ldPair_space1 hF)
      ldPair_space2 _ h1
  have h3 : List.Chain' (fun a b => dlPair isDig a b = false)
      (sepDigitoLetra isDig (sepLetraDigito isDig l)) :=
    sep_chain (dlPair isDig) dlPair_space1 (dlPair_space2 hF) (dlPair_skip hF) _
  exact (chain_and h2 h3).imp fun a b hab => by
    simp [mixPair, hab.1, hab.2]

/-! ## Character set of the Spanish spellings -/

/-- `okStr` is preserved by appending. -/
theorem okStr_append {a b : String} (ha : okStr a) (hb : okStr b) :
    okStr (a ++ b) := by
  simp only [okStr, String.data_append, List.all_append]
  simp [ha, hb]

/-- Units spellings contain no digits and no uppercase letters. -/
theorem unidadEs_ok (n : Nat) : okStr (unidadEs n) := by
  unfold unidadEs
  repeat' split
  all_goals decide

/-- Tens spellings contain no digits and no uppercase letters. -/
theorem decenaEs_ok (n : Nat) : okStr (decenaEs n) := by
  unfold decenaEs
  repeat' split
  all_goals decide

/-- Spellings for 10-19 contain no digits and no uppercase letters. -/
theorem adolescenteEs_ok (n : Nat) : okStr (adolescenteEs n) := by
  unfold adolescenteEs
  repeat' split
  all_goals decide

/-- Spellings for 20-29 contain no digits and no uppercase letters. -/
theorem veintiEs_ok (n : Nat) : okStr (veintiEs n) := by
  unfold veintiEs
  repeat' split
  all_goals decide

/-- Sub-hundred spellings contain no digits and no uppercase letters. -/
theorem hastaCienEs_ok (n : Nat) : okStr (hastaCienEs n) := by
  unfold hastaCienEs
  repeat' split
  all_goals
    first
    | exact unidadEs_ok _
    | exact adolescenteEs_ok _
    | exact veintiEs_ok _
    | exact okStr_append (decenaEs_ok _) (by decide)
    | exact okStr_append (decenaEs_ok _) (okStr_append (by decide) (unidadEs_ok _))

/-- Sub-thousand spellings contain no digits and no uppercase letters. -/
theorem hastaMilEs_ok (n : Nat) : okStr (hastaMilEs n) := by
  unfold hastaMilEs
  repeat' split
  all_goals
    repeat'
      first
      | exact hastaCienEs_ok _
      | apply okStr_append
      | decide

/-- Sub-million spellings contain no digits and no uppercase letters. -/
theorem hastaMillonEs_ok (n : Nat) : okStr (hastaMillonEs n) := by
  unfold hastaMillonEs
  repeat' split
  all_goals
    repeat'
      first
      | exact hastaMilEs_ok _
      | apply okStr_append
      | decide

/-- The modelled `num2words` spellings contain no digits and no uppercase
letters. -/
theorem num2words_es_ok (n : Nat) : okStr (num2words_es n) := by
  unfold num2words_es
  repeat' split
  all_goals
    repeat'
      first
      | exact hastaMillonEs_ok _
      | apply okStr_append
      | decide

/-- No character of a spelled-out number is an ASCII digit. -/
theorem num2words_nodigit {n : Nat} {c : Char}
    (hc : c ∈ (num2words_es n).data) : c.isDigit = false := by
  have := List.all_eq_true.mp (num2words_es_ok n) c hc
  simp only [okChar, Bool.and_eq_true, Bool.not_eq_true',
    decide_eq_true_eq] at this
  exact this.1.1

/-- No character of a spelled-out number is an uppercase ASCII letter. -/
theorem num2words_noupper {n : Nat} {c : Char}
    (hc : c ∈ (num2words_es n).data) : c.isUpper = false := by
  have := List.all_eq_true.mp (num2words_es_ok n) c hc
  simp only [okChar, Bool.and_eq_true, Bool.not_eq_true',
    decide_eq_true_eq] at this
  exact this.1.2

/-- Every character of a spelled-out number lies in Latin-1. -/
theorem num2words_latin1 {n : Nat} {c : Char}
    (hc : c ∈ (num2words_es n).data) : c.toNat < 256 := by
  have := List.all_eq_true.mp (num2words_es_ok n) c hc
  simp only [okChar, Bool.and_eq_true, Bool.not_eq_true',
    decide_eq_true_eq] at this
  exact this.2

/-- No character of a spelled-out number is a `\d` digit, for any faithful
digit class. -/
theorem fc_num2words_nodig {isDig isWord : Char → Bool}
    (hF : FaithfulClasses isDig isWord) {n : Nat} {c : Char}
    (hc : c ∈ (num2words_es n).data) : isDig c = false := by
  rw [hF.1 c (num2words_latin1 hc)]
  exact num2words_nodigit hc

/-! ## Basic lemmas about the `\b\d+\b` scan

All lemmas hold for arbitrary class predicates `isDig`/`isWord` and run
value `dval`; the ones that need facts about the real classes take a
`FaithfulClasses` hypothesis.
-/

/-- With the skip flag set, the scan drops the leading digits and then
proceeds normally; the remembered previous character is irrelevant because
the next character examined is not a digit. -/
theorem rn_skip_eq (isDig isWord : Char → Bool) (dval : List Char → Nat)
    (prev q : Option Char) (l : List Char) :
    rnAux isDig isWord dval true prev l =
      rnAux isDig isWord dval false q (l.dropWhile isDig) := by
  induction l with
  | nil => rfl
  | cons c rest ih =>
    by_cases hd : isDig c
    · simp [rnAux, hd, List.dropWhile_cons, ih]
    · simp [rnAux, hd, List.dropWhile_cons]

/-- When the head of the list is not a digit, the remembered previous
character does not influence the scan. -/
theorem rn_prev_irrel (isDig isWord : Char → Bool) (dval : List Char → Nat)
    (p q : Option Char) (l : List Char)
    (h : ∀ c ∈ l.head?, isDig c = false) :
    rnAux isDig isWord dval false p l = rnAux isDig isWord dval false q l := by
  cases l with
  | nil => rfl
  | cons c t =>
    have hc := h c rfl
    simp [rnAux, hc]

/-- Same irrelevance for the bounded-run checker. -/
theorem hbra_prev_irrel (isDig isWord : Char → Bool) (p q : Option Char)
    (l : List Char) (h : ∀ c ∈ l.head?, isDig c = false) :
    hasBoundedRunAux isDig isWord p l = hasBoundedRunAux isDig isWord q l := by
  cases l with
  | nil => rfl
  | cons c t =>
    have hc := h c rfl
    simp [hasBoundedRunAux, hc]

/-- The head of what remains after `dropWhile` fails the predicate. -/
theorem head_dropWhile_false (p : Char → Bool) (t : List Char) :
    ∀ c ∈ (t.dropWhile p).head?, p c = false := by
  induction t with
  | nil => simp
  | cons a t' ih =>
    by_cases ha : p a
    · simpa [List.dropWhile_cons, ha] using ih
    · simp only [List.dropWhile_cons, if_neg ha]
      intro c hc
      obtain rfl : c = a := by simpa using hc.symm
      simpa using ha

/-- The bounded-run checker ignores a digit-free block at the front. -/
theorem hbra_skip_nodigit (isDig isWord : Char → Bool) (w t : List Char)
    (hw : ∀ c ∈ w, isDig c = false) (ht : ∀ c ∈ t.head?, isDig c = false)
    (p q : Option Char) :
    hasBoundedRunAux isDig isWord p (w ++ t) =
      hasBoundedRunAux isDig isWord q t := by
  induction w generalizing p with
  | nil => exact hbra_prev_irrel isDig isWord p q t ht
  | cons a w' ih =>
    have ha : isDig a = false := hw a (by simp)
    simp only [List.cons_append, hasBoundedRunAux, ha, Bool.false_and,
      Bool.and_eq_true, if_neg (by simp : ¬((false : Bool) = true))]
    exact ih (fun c hc => hw c (by simp [hc])) (some a)

/-- Scanning from a word character, the scan copies the leading digit run
verbatim (no `\b` before any of its digits) and continues after it. -/
theorem rn_digits_id {isDig isWord : Char → Bool}
    (hF : FaithfulClasses isDig isWord) (dval : List Char → Nat)
    (prev : Option Char) (l : List Char) (hw : isWordOpt isWord prev = true) :
    rnAux isDig isWord dval false prev l =
      l.takeWhile isDig ++ rnAux isDig isWord dval false prev (l.dropWhile isDig) := by
  induction l generalizing prev with
  | nil => rfl
  | cons c t ih =>
    by_cases hd : isDig c
    · have hcw : isWordOpt isWord (some c) = true := fc_dig_word hF hd
      have step : rnAux isDig isWord dval false prev (c :: t) =
          c :: rnAux isDig isWord dval false (some c) t := by
        simp [rnAux, hd, hw]
      rw [step, ih (some c) hcw,
        rn_prev_irrel isDig isWord dval (some c) prev (t.dropWhile isDig)
          (head_dropWhile_false isDig t)]
      simp [List.takeWhile_cons, List.dropWhile_cons, hd]
    · rw [List.takeWhile_cons, List.dropWhile_cons, if_neg hd, if_neg hd,
        List.nil_append]

/-- Head of the scan output when the input head is not a digit. -/
theorem rn_head_nodigit (isDig isWord : Char → Bool) (dval : List Char → Nat)
    (p : Option Char) (l : List Char)
    (h : ∀ c ∈ l.head?, isDig c = false) :
    ∀ c ∈ (rnAux isDig isWord dval false p l).head?, isDig c = false := by
  cases l with
  | nil => simp [rnAux]
  | cons a t =>
    have ha := h a rfl
    intro c hc
    rw [show rnAux isDig isWord dval false p (a :: t) =
        a :: rnAux isDig isWord dval false (some a) t by
      simp [rnAux, ha]] at hc
    obtain rfl : c = a := by simpa using hc.symm
    exact ha

/-- Scanning from a word character never rewrites the head: the output
starts with the input's first character. -/
theorem rn_head_word (isDig isWord : Char → Bool) (dval : List Char → Nat)
    (c : Char) (l : List Char) (hc : isWord c = true) :
    (rnAux isDig isWord dval false (some c) l).head? = l.head? := by
  cases l with
  | nil => rfl
  | cons a t =>
    by_cases ha : isDig a
    · simp [rnAux, ha, isWordOpt, hc]
    · simp [rnAux, ha]

/-- The scan is the identity on digit-free input. -/
theorem rn_nodigit_id (isDig isWord : Char → Bool) (dval : List Char → Nat)
    (prev : Option Char) (l : List Char)
    (h : ∀ c ∈ l, isDig c = false) :
    rnAux isDig isWord dval false prev l = l := by
  induction l generalizing prev with
  | nil => rfl
  | cons c t ih =>
    have hc : isDig c = false := h c (by simp)
    simp only [rnAux, hc, Bool.false_and, Bool.and_eq_true]
    simp only [if_neg (by simp : ¬((false : Bool) = true))]
    exact congrArg (c :: ·) (ih (some c) fun x hx => h x (by simp [hx]))

/-- Dropping while a predicate holds passes over a block where it holds
everywhere. -/
theorem dropWhile_append_all (p : Char → Bool) (u v : List Char)
    (hu : ∀ c ∈ u, p c = true) :
    List.dropWhile p (u ++ v) = List.dropWhile p v := by
  induction u with
  | nil => rfl
  | cons a u' ih =>
    have ha := hu a (by simp)
    simp only [List.cons_append, List.dropWhile_cons, ha, if_pos rfl]
    exact ih fun c hc => hu c (by simp [hc])

/-- A digit-free list has no letter-digit or digit-letter adjacency. -/
theorem chain_of_nodigit (isDig : Char → Bool) (u : List Char)
    (hu : ∀ c ∈ u, isDig c = false) :
    List.Chain' (fun a b => mixPair isDig a b = false) u := by
  induction u with
  | nil => simp
  | cons a t ih =>
    refine List.chain'_cons'.mpr ⟨fun y hy => ?_, ih fun c hc => hu c (by simp [hc])⟩
    have hyt : y ∈ t := List.mem_of_mem_head? hy
    simp [mixPair, ldPair, dlPair, hu a (by simp), hu y (by simp [hyt])]

/-- A chain restricted to the `dropWhile` suffix. -/
theorem chain_dropWhile {R : Char → Char → Prop} (p : Char → Bool)
    {l : List Char} (h : List.Chain' R l) : List.Chain' R (l.dropWhile p) := by
  have h2 : List.Chain' R (l.takeWhile p ++ l.dropWhile p) := by
    rw [List.takeWhile_append_dropWhile]; exact h
  exact (List.chain'_append.mp h2).2.1

/-- Core invariant 1: on input with no letter-digit adjacency, the
`\b\d+\b` pass produces output with no letter-digit adjacency either (the
inserted spellings are glued to non-word characters only). -/
theorem rn_chain_aux {isDig isWord : Char → Bool}
    (hF : FaithfulClasses isDig isWord) (dval : List Char → Nat) :
    ∀ (n : Nat) (l : List Char) (prev : Option Char), l.length ≤ n →
      List.Chain' (fun a b => mixPair isDig a b = false) l →
      List.Chain' (fun a b => mixPair isDig a b = false)
        (rnAux isDig isWord dval false prev l) := by
  intro n
  induction n with
  | zero =>
    intro l prev hlen _
    obtain rfl : l = [] := List.length_eq_zero.mp (Nat.le_zero.mp hlen)
    simp [rnAux]
  | succ n ih =>
    intro l prev hlen hchain
    cases l with
    | nil => simp [rnAux]
    | cons c rest =>
      have hrest : rest.length ≤ n := by
        simp only [List.length_cons] at hlen; omega
      by_cases hcond : (isDig c && !isWordOpt isWord prev) = true
      · have hd : isDig c = true := by
          have := hcond
          simp only [Bool.and_eq_true] at this
          exact this.1
        by_cases hb : boundaryOk isWord (rest.dropWhile isDig) = true
        · have hout : rnAux isDig isWord dval false prev (c :: rest) =
              (num2words_es (dval (c :: rest.takeWhile isDig))).data
                ++ rnAux isDig isWord dval false (some c) (rest.dropWhile isDig) := by
            have e1 : rnAux isDig isWord dval false prev (c :: rest) =
                (num2words_es (dval (c :: rest.takeWhile isDig))).data
                  ++ rnAux isDig isWord dval true (some c) rest := by
              simp [rnAux, hcond, hb]
            rw [e1, rn_skip_eq isDig isWord dval (some c) (some c) rest]
          rw [hout]
          have hZhead := rn_head_nodigit isDig isWord dval (some c)
            (rest.dropWhile isDig) (head_dropWhile_false isDig rest)
          refine List.chain'_append.mpr ⟨?_, ?_, ?_⟩
          · exact chain_of_nodigit isDig _ fun x hx => fc_num2words_nodig hF hx
          · exact ih (rest.dropWhile isDig) (some c)
              (le_trans (List.dropWhile_suffix _).length_le hrest)
              (chain_dropWhile isDig hchain.tail)
          · intro x hx y hy
            have hxd : isDig x = false :=
              fc_num2words_nodig hF (List.mem_of_mem_getLast? hx)
            have hyd : isDig y = false := hZhead y hy
            simp [mixPair, ldPair, dlPair, hxd, hyd]
        · have hout : rnAux isDig isWord dval false prev (c :: rest) =
              c :: rnAux isDig isWord dval false (some c) rest := by
            simp [rnAux, hcond, hb]
          rw [hout]
          refine List.chain'_cons'.mpr ⟨fun y hy => ?_,
            ih rest (some c) hrest hchain.tail⟩
          rw [rn_head_word isDig isWord dval c rest (fc_dig_word hF hd)] at hy
          exact (List.chain'_cons'.mp hchain).1 y hy
      · have hout : rnAux isDig isWord dval false prev (c :: rest) =
            c :: rnAux isDig isWord dval false (some c) rest := by
          simp [rnAux, hcond]
        rw [hout]
        refine List.chain'_cons'.mpr ⟨fun y hy => ?_,
          ih rest (some c) hrest hchain.tail⟩
        by_cases hcw : isWord c = true
        · rw [rn_head_word isDig isWord dval c rest hcw] at hy
          exact (List.chain'_cons'.mp hchain).1 y hy
        · have hfacts := fc_not_word hF (by simpa using hcw)
          simp [mixPair, ldPair, dlPair, hfacts.1, hfacts.2]

/-- Core invariant 2: on input with no letter-digit adjacency, the output
of the `\b\d+\b` pass contains no `\b`-bounded digit run: every bounded run
has been replaced, and every surviving digit run is still blocked by a word
character. -/
theorem rn_nobounded_aux {isDig isWord : Char → Bool}
    (hF : FaithfulClasses isDig isWord) (dval : List Char → Nat) :
    ∀ (n : Nat) (l : List Char) (prev : Option Char), l.length ≤ n →
      List.Chain' (fun a b => mixPair isDig a b = false) l →
      hasBoundedRunAux isDig isWord prev (rnAux isDig isWord dval false prev l) = false := by
  intro n
  induction n with
  | zero =>
    intro l prev hlen _
    obtain rfl : l = [] := List.length_eq_zero.mp (Nat.le_zero.mp hlen)
    rfl
  | succ n ih =>
    intro l prev hlen hchain
    cases l with
    | nil => rfl
    | cons c rest =>
      have hrest : rest.length ≤ n := by
        simp only [List.length_cons] at hlen; omega
      by_cases hcond : (isDig c && !isWordOpt isWord prev) = true
      · have hd : isDig c = true := by
          have := hcond
          simp only [Bool.and_eq_true] at this
          exact this.1
        by_cases hb : boundaryOk isWord (rest.dropWhile isDig) = true
        · have hout : rnAux isDig isWord dval false prev (c :: rest) =
              (num2words_es (dval (c :: rest.takeWhile isDig))).data
                ++ rnAux isDig isWord dval false (some c) (rest.dropWhile isDig) := by
            have e1 : rnAux isDig isWord dval false prev (c :: rest) =
                (num2words_es (dval (c :: rest.takeWhile isDig))).data
                  ++ rnAux isDig isWord dval true (some c) rest := by
              simp [rnAux, hcond, hb]
            rw [e1, rn_skip_eq isDig isWord dval (some c) (some c) rest]
          rw [hout]
          have hZhead := rn_head_nodigit isDig isWord dval (some c)
            (rest.dropWhile isDig) (head_dropWhile_false isDig rest)
          rw [hbra_skip_nodigit isDig isWord _ _
            (fun x hx => fc_num2words_nodig hF hx) hZhead prev (some c)]
          exact ih (rest.dropWhile isDig) (some c)
            (le_trans (List.dropWhile_suffix _).length_le hrest)
            (chain_dropWhile isDig hchain.tail)
        · have hout : rnAux isDig isWord dval false prev (c :: rest) =
              c :: rnAux isDig isWord dval false (some c) rest := by
            simp [rnAux, hcond, hb]
          rw [hout]
          have hbra_eq : hasBoundedRunAux isDig isWord prev
              (c :: rnAux isDig isWord dval false (some c) rest) =
              (boundaryOk isWord
                  ((rnAux isDig isWord dval false (some c) rest).dropWhile isDig)
                || hasBoundedRunAux isDig isWord (some c)
                    (rnAux isDig isWord dval false (some c) rest)) := by
            simp [hasBoundedRunAux, hcond]
          rw [hbra_eq, Bool.or_eq_false_iff]
          refine ⟨?_, ih rest (some c) hrest hchain.tail⟩
          cases hrw : rest.dropWhile isDig with
          | nil =>
            rw [hrw] at hb
            exact absurd rfl hb
          | cons h t =>
            have hword : isWord h = true := by
              rw [hrw] at hb
              simpa [boundaryOk] using hb
            have hhd : isDig h = false := by
              have hw := head_dropWhile_false isDig rest
              rw [hrw] at hw
              exact hw h rfl
            have hX : rnAux isDig isWord dval false (some c) rest =
                rest.takeWhile isDig
                  ++ (h :: rnAux isDig isWord dval false (some h) t) := by
              rw [rn_digits_id hF dval (some c) rest (fc_dig_word hF hd), hrw]
              congr 1
              simp [rnAux, hhd]
            rw [hX, dropWhile_append_all isDig _ _
              (fun x hx => List.mem_takeWhile_imp hx),
              List.dropWhile_cons, if_neg (by simp [hhd])]
            simp [boundaryOk, hword]
      · have hout : rnAux isDig isWord dval false prev (c :: rest) =
            c :: rnAux isDig isWord dval false (some c) rest := by
          simp [rnAux, hcond]
        rw [hout]
        have hbra_eq : hasBoundedRunAux isDig isWord prev
            (c :: rnAux isDig isWord dval false (some c) rest) =
            hasBoundedRunAux isDig isWord (some c)
              (rnAux isDig isWord dval false (some c) rest) := by
          simp [hasBoundedRunAux, hcond]
        rw [hbra_eq]
        exact ih rest (some c) hrest hchain.tail

/-- Core invariant 3: when the input contains no `\b`-bounded digit run,
the `\b\d+\b` pass is the identity. -/
theorem rn_id_aux (isDig isWord : Char → Bool) (dval : List Char → Nat) :
    ∀ (n : Nat) (l : List Char) (prev : Option Char), l.length ≤ n →
      hasBoundedRunAux isDig isWord prev l = false →
      rnAux isDig isWord dval false prev l = l := by
  intro n
  induction n with
  | zero =>
    intro l prev hlen _
    obtain rfl : l = [] := List.length_eq_zero.mp (Nat.le_zero.mp hlen)
    rfl
  | succ n ih =>
    intro l prev hlen hfalse
    cases l with
    | nil => rfl
    | cons c rest =>
      have hrest : rest.length ≤ n := by
        simp only [List.length_cons] at hlen; omega
      by_cases hcond : (isDig c && !isWordOpt isWord prev) = true
      · have hbra_eq : hasBoundedRunAux isDig isWord prev (c :: rest) =
            (boundaryOk isWord (rest.dropWhile isDig)
              || hasBoundedRunAux isDig isWord (some c) rest) := by
          simp [hasBoundedRunAux, hcond]
        rw [hbra_eq, Bool.or_eq_false_iff] at hfalse
        have hout : rnAux isDig isWord dval false prev (c :: rest) =
            c :: rnAux isDig isWord dval false (some c) rest := by
          simp [rnAux, hcond, hfalse.1]
        rw [hout, ih rest (some c) hrest hfalse.2]
      · have hf2 : hasBoundedRunAux isDig isWord (some c) rest = false := by
          simpa [hasBoundedRunAux, hcond] using hfalse
        have hout : rnAux isDig isWord dval false prev (c :: rest) =
            c :: rnAux isDig isWord dval false (some c) rest := by
          simp [rnAux, hcond]
        rw [hout, ih rest (some c) hrest hf2]

/-- Weakening: no mixed adjacency gives no letter-digit adjacency. -/
theorem chain_ld_of_mix {isDig : Char → Bool} {l : List Char}
    (h : List.Chain' (fun a b => mixPair isDig a b = false) l) :
    List.Chain' (fun a b => ldPair isDig a b = false) l :=
  h.imp fun a b hab => by
    simp only [mixPair, Bool.or_eq_false_iff] at hab
    exact hab.1

/-- Weakening: no mixed adjacency gives no digit-letter adjacency. -/
theorem chain_dl_of_mix {isDig : Char → Bool} {l : List Char}
    (h : List.Chain' (fun a b => mixPair isDig a b = false) l) :
    List.Chain' (fun a b => dlPair isDig a b = false) l :=
  h.imp fun a b hab => by
    simp only [mixPair, Bool.or_eq_false_iff] at hab
    exact hab.2

/-- The output of the number normalizer has no letter-digit or digit-letter
adjacency, for every faithful class instantiation. -/
theorem traducir_chain {isDig isWord : Char → Bool}
    (hF : FaithfulClasses isDig isWord) (dval : List Char → Nat) (s : String) :
    List.Chain' (fun a b => mixPair isDig a b = false)
      (traducirNum isDig isWord dval s).data :=
  rn_chain_aux hF dval
    (sepDigitoLetra isDig (sepLetraDigito isDig s.data)).length _ none le_rfl
    (sep12_mix hF s.data)

/-- The output of the number normalizer contains no `\b`-bounded digit run:
every run the `\b\d+\b` regex would match has been replaced. -/
theorem traducir_nobounded {isDig isWord : Char → Bool}
    (hF : FaithfulClasses isDig isWord) (dval : List Char → Nat) (s : String) :
    hasBoundedRun isDig isWord (traducirNum isDig isWord dval s).data = false :=
  rn_nobounded_aux hF dval
    (sepDigitoLetra isDig (sepLetraDigito isDig s.data)).length _ none le_rfl
    (sep12_mix hF s.data)

/-! ## Transfer to the ASCII instantiation

The scan consults the class predicates only at characters of its input, so
on an ASCII input every faithful instantiation computes the same result as
the ASCII fragments; the concrete spec examples are evaluated through this
transfer.
-/

/-- A separating pass only consults the pattern at input characters. -/
theorem sepAdjacent_congr (p q : Char → Char → Bool) (l : List Char) :
    (∀ a ∈ l, ∀ b ∈ l, p a b = q a b) → sepAdjacent p l = sepAdjacent q l := by
  induction l using sepAdjacent.induct p with
  | case1 => intro _; rfl
  | case2 c => intro _; rfl
  | case3 c c2 rest h ih =>
    intro hpq
    rw [sepAdjacent, sepAdjacent, if_pos h,
      if_pos (by rw [← hpq c (by simp) c2 (by simp)]; exact h),
      ih fun a ha b hb => hpq a (by simp [ha]) b (by simp [hb])]
  | case4 c c2 rest h ih =>
    intro hpq
    rw [sepAdjacent, sepAdjacent, if_neg h,
      if_neg (by rw [← hpq c (by simp) c2 (by simp)]; exact h),
      ih fun a ha b hb => hpq a (by simp [ha]) b (by simp [hb])]

/-- `takeWhile` only consults the predicate at input characters. -/
theorem takeWhile_congr_mem (p q : Char → Bool) (l : List Char)
    (h : ∀ c ∈ l, p c = q c) : l.takeWhile p = l.takeWhile q := by
  induction l with
  | nil => rfl
  | cons a t ih =>
    rw [List.takeWhile_cons, List.takeWhile_cons, h a (by simp),
      ih fun c hc => h c (by simp [hc])]

/-- `dropWhile` only consults the predicate at input characters. -/
theorem dropWhile_congr_mem (p q : Char → Bool) (l : List Char)
    (h : ∀ c ∈ l, p c = q c) : l.dropWhile p = l.dropWhile q := by
  induction l with
  | nil => rfl
  | cons a t ih =>
    rw [List.dropWhile_cons, List.dropWhile_cons, h a (by simp),
      ih fun c hc => h c (by simp [hc])]

/-- The `\b\d+\b` scan only consults the classes at input characters (and
at the remembered previous character) and the run value at digit runs of
the input. -/
theorem rnAux_congr (isDig isDig2 isWord isWord2 : Char → Bool)
    (dval dval2 : List Char → Nat) :
    ∀ (n : Nat) (l : List Char) (prev : Option Char), l.length ≤ n →
      (∀ c ∈ l, isDig c = isDig2 c ∧ isWord c = isWord2 c) →
      (∀ c, prev = some c → isWord c = isWord2 c) →
      (∀ r : List Char, (∀ c ∈ r, c ∈ l ∧ isDig c = true) → dval r = dval2 r) →
      rnAux isDig isWord dval false prev l =
        rnAux isDig2 isWord2 dval2 false prev l := by
  intro n
  induction n with
  | zero =>
    intro l prev hlen _ _ _
    obtain rfl : l = [] := List.length_eq_zero.mp (Nat.le_zero.mp hlen)
    rfl
  | succ n ih =>
    intro l prev hlen hcl hprev hdv
    cases l with
    | nil => rfl
    | cons c rest =>
      have hrest : rest.length ≤ n := by
        simp only [List.length_cons] at hlen; omega
      obtain ⟨hdeq, hweq⟩ := hcl c (by simp)
      have hclr : ∀ x ∈ rest, isDig x = isDig2 x ∧ isWord x = isWord2 x :=
        fun x hx => hcl x (by simp [hx])
      have hpreq : isWordOpt isWord prev = isWordOpt isWord2 prev := by
        cases prev with
        | none => rfl
        | some a => exact hprev a rfl
      have htw : rest.takeWhile isDig = rest.takeWhile isDig2 :=
        takeWhile_congr_mem _ _ rest fun x hx => (hclr x hx).1
      have hdw : rest.dropWhile isDig = rest.dropWhile isDig2 :=
        dropWhile_congr_mem _ _ rest fun x hx => (hclr x hx).1
      have hbeq : boundaryOk isWord (rest.dropWhile isDig) =
          boundaryOk isWord2 (rest.dropWhile isDig2) := by
        rw [← hdw]
        cases hdrw : rest.dropWhile isDig with
        | nil => rfl
        | cons h t =>
          have hmem : h ∈ rest := by
            have := (List.dropWhile_suffix isDig (l := rest)).subset
            rw [hdrw] at this
            exact this (by simp)
          simp [boundaryOk, (hclr h hmem).2]
      by_cases hcond : (isDig c && !isWordOpt isWord prev) = true
      · have hcond2 : (isDig2 c && !isWordOpt isWord2 prev) = true := by
          rw [← hdeq, ← hpreq]
          exact hcond
        have hd : isDig c = true := by
          have := hcond
          simp only [Bool.and_eq_true] at this
          exact this.1
        by_cases hb : boundaryOk isWord (rest.dropWhile isDig) = true
        · have hb2 : boundaryOk isWord2 (rest.dropWhile isDig2) = true := by
            rw [← hbeq]
            exact hb
          have hval : dval (c :: rest.takeWhile isDig) =
              dval2 (c :: rest.takeWhile isDig) := by
            refine hdv _ fun x hx => ?_
            rcases List.mem_cons.mp hx with rfl | hx2
            · exact ⟨by simp, hd⟩
            · exact ⟨by simp [(List.takeWhile_prefix isDig (l := rest)).subset hx2],
                List.mem_takeWhile_imp hx2⟩
          rw [show rnAux isDig isWord dval false prev (c :: rest) =
              (num2words_es (dval (c :: rest.takeWhile isDig))).data
                ++ rnAux isDig isWord dval true (some c) rest by
            simp [rnAux, hcond, hb]]
          rw [show rnAux isDig2 isWord2 dval2 false prev (c :: rest) =
              (num2words_es (dval2 (c :: rest.takeWhile isDig2))).data
                ++ rnAux isDig2 isWord2 dval2 true (some c) rest by
            simp [rnAux, hcond2, hb2]]
          rw [← htw, ← hval,
            rn_skip_eq isDig isWord dval (some c) (some c) rest,
            rn_skip_eq isDig2 isWord2 dval2 (some c) (some c) rest, ← hdw]
          congr 1
          refine ih (rest.dropWhile isDig) (some c)
            (le_trans (List.dropWhile_suffix _).length_le hrest)
            (fun x hx => hclr x ((List.dropWhile_suffix isDig).subset hx))
            (fun a ha => by
              obtain rfl : a = c := by simpa using ha.symm
              exact hweq)
            (fun r hr => hdv r fun x hx =>
              ⟨by simp [((List.dropWhile_suffix isDig).subset (hr x hx).1)],
                (hr x hx).2⟩)
        · have hb2 : ¬boundaryOk isWord2 (rest.dropWhile isDig2) = true := by
            rw [← hbeq]
            exact hb
          rw [show rnAux isDig isWord dval false prev (c :: rest) =
              c :: rnAux isDig isWord dval false (some c) rest by
            simp [rnAux, hcond, hb]]
          rw [show rnAux isDig2 isWord2 dval2 false prev (c :: rest) =
              c :: rnAux isDig2 isWord2 dval2 false (some c) rest by
            simp [rnAux, hcond2, hb2]]
          congr 1
          refine ih rest (some c) hrest hclr
            (fun a ha => by
              obtain rfl : a = c := by simpa using ha.symm
              exact hweq)
            (fun r hr => hdv r fun x hx => ⟨by simp [(hr x hx).1], (hr x hx).2⟩)
      · have hcond2 : ¬(isDig2 c && !isWordOpt isWord2 prev) = true := by
          rw [← hdeq, ← hpreq]
          exact hcond
        rw [show rnAux isDig isWord dval false prev (c :: rest) =
            c :: rnAux isDig isWord dval false (some c) rest by
          simp [rnAux, hcond]]
        rw [show rnAux isDig2 isWord2 dval2 false prev (c :: rest) =
            c :: rnAux isDig2 isWord2 dval2 false (some c) rest by
          simp [rnAux, hcond2]]
        congr 1
        refine ih rest (some c) hrest hclr
          (fun a ha => by
            obtain rfl : a = c := by simpa using ha.symm
            exact hweq)
          (fun r hr => hdv r fun x hx => ⟨by simp [(hr x hx).1], (hr x hx).2⟩)

/-- On ASCII input every faithful instantiation of the normalizer computes
exactly what the ASCII instantiation computes. -/
theorem traducirNum_ascii {isDig isWord : Char → Bool}
    (hF : FaithfulClasses isDig isWord) {dval : List Char → Nat}
    (hV : FaithfulIntVal dval) (s : String)
    (hs : ∀ c ∈ s.data, c.toNat < 128) :
    traducirNum isDig isWord dval s = traducir_numero_a_texto s := by
  have hagree : ∀ c : Char, c.toNat < 128 →
      isDig c = c.isDigit ∧ isWord c = isWordChar c :=
    fun c hc => ⟨hF.1 c (by omega), hF.2.1 c hc⟩
  have h1 : sepLetraDigito isDig s.data = sepLetraDigito Char.isDigit s.data :=
    sepAdjacent_congr _ _ s.data fun a _ b hb => by
      unfold ldPair
      rw [(hagree b (hs b hb)).1]
  have hs1 : ∀ c ∈ sepLetraDigito Char.isDigit s.data, c.toNat < 128 := by
    intro c hc
    rcases sep_mem _ _ c hc with hm | rfl
    · exact hs c hm
    · decide
  have h2 : sepDigitoLetra isDig (sepLetraDigito Char.isDigit s.data) =
      sepDigitoLetra Char.isDigit (sepLetraDigito Char.isDigit s.data) :=
    sepAdjacent_congr _ _ _ fun a ha b _ => by
      unfold dlPair
      rw [(hagree a (hs1 a ha)).1]
  have hs2 : ∀ c ∈ sepDigitoLetra Char.isDigit (sepLetraDigito Char.isDigit s.data),
      c.toNat < 128 := by
    intro c hc
    rcases sep_mem _ _ c hc with hm | rfl
    · exact hs1 c hm
    · decide
  have h3 : rnAux isDig isWord dval false none
      (sepDigitoLetra Char.isDigit (sepLetraDigito Char.isDigit s.data)) =
      rnAux Char.isDigit isWordChar digitsVal false none
        (sepDigitoLetra Char.isDigit (sepLetraDigito Char.isDigit s.data)) := by
    refine rnAux_congr isDig Char.isDigit isWord isWordChar dval digitsVal
      _ _ none le_rfl (fun c hc => hagree c (hs2 c hc)) (by simp) ?_
    intro r hr
    have hrd : ∀ c ∈ r, c.isDigit = true := by
      intro x hx
      have := (hr x hx).2
      rw [(hagree x (hs2 x (hr x hx).1)).1] at this
      exact this
    rw [hV r hrd]
  show String.mk (rnAux isDig isWord dval false none
      (sepDigitoLetra isDig (sepLetraDigito isDig s.data))) = _
  rw [h1, h2, h3]
  rfl

/-- C1.  For every faithful instantiation of the regex character classes
(hence for the Python runtime's real `\d`, `\b` and `int`) and every input
string, the Number Normalizer returns a string in which (1) no `[A-Za-z]`
letter is immediately followed by a `\d` digit and no `\d` digit by a
letter (every such adjacency received a separating space) and (2) no
`\b`-bounded maximal digit run remains (each was replaced by its Spanish
spelling); on the spec's ASCII examples every faithful instantiation maps
"tengo 3 gatos" to "tengo tres gatos" and "v2 del modelo" to
"v dos del modelo". -/
theorem c1_number_normalizer :
    (∀ (isDig isWord : Char → Bool) (dval : List Char → Nat),
      FaithfulClasses isDig isWord → ∀ s : String,
        List.Chain' (fun a b => mixPair isDig a b = false)
          (traducirNum isDig isWord dval s).data ∧
        hasBoundedRun isDig isWord (traducirNum isDig isWord dval s).data = false) ∧
    (∀ (isDig isWord : Char → Bool) (dval : List Char → Nat),
      FaithfulClasses isDig isWord → FaithfulIntVal dval →
        traducirNum isDig isWord dval "tengo 3 gatos" = "tengo tres gatos" ∧
        traducirNum isDig isWord dval "v2 del modelo" = "v dos del modelo") :=
  ⟨fun _ _ dval hF s => ⟨traducir_chain hF dval s, traducir_nobounded hF dval s⟩,
   fun _ _ _ hF hV =>
     ⟨(traducirNum_ascii hF hV "tengo 3 gatos" (by decide)).trans (by decide),
      (traducirNum_ascii hF hV "v2 del modelo" (by decide)).trans (by decide)⟩⟩

/-- Witness for C1 at the ASCII instantiation of the classes. -/
theorem c1_number_normalizer_witness :
    FaithfulClasses Char.isDigit isWordChar ∧ FaithfulIntVal digitsVal ∧
    hasBoundedRun Char.isDigit isWordChar
      (traducirNum Char.isDigit isWordChar digitsVal "v2 del modelo").data = false ∧
    traducirNum Char.isDigit isWordChar digitsVal "tengo 3 gatos" =
      "tengo tres gatos" :=
  ⟨faithful_ascii, faithful_val_ascii,
   (c1_number_normalizer.1 Char.isDigit isWordChar digitsVal faithful_ascii
     "v2 del modelo").2,
   (c1_number_normalizer.2 Char.isDigit isWordChar digitsVal faithful_ascii
     faithful_val_ascii).1⟩

/-- C8.  For every faithful instantiation of the classes (hence for the
real `\d`), the Number Normalizer is the identity on every string that
contains no `\d` digit. -/
theorem c8_nodigit_id (isDig isWord : Char → Bool) (dval : List Char → Nat)
    (hF : FaithfulClasses isDig isWord) (s : String)
    (h : ∀ c ∈ s.data, isDig c = false) :
    traducirNum isDig isWord dval s = s := by
  have h1 : sepLetraDigito isDig s.data = s.data :=
    sep_id (ldPair isDig) s.data
      (chain_ld_of_mix (chain_of_nodigit isDig s.data h))
  have h2 : sepDigitoLetra isDig s.data = s.data :=
    sep_id (dlPair isDig) s.data
      (chain_dl_of_mix (chain_of_nodigit isDig s.data h))
  show String.mk (rnAux isDig isWord dval false none
      (sepDigitoLetra isDig (sepLetraDigito isDig s.data))) = s
  rw [h1, h2, rn_nodigit_id isDig isWord dval none s.data h]

/-- Witness for C8 at the ASCII instantiation and a concrete digit-free
input. -/
theorem c8_nodigit_id_witness :
    FaithfulClasses Char.isDigit isWordChar ∧
    (∀ c ∈ ("hola mundo" : String).data, Char.isDigit c = false) ∧
    traducirNum Char.isDigit isWordChar digitsVal "hola mundo" = "hola mundo" :=
  ⟨faithful_ascii, by decide,
   c8_nodigit_id Char.isDigit isWordChar digitsVal faithful_ascii "hola mundo"
     (by decide)⟩

/-- C9.  For every faithful instantiation of the classes (hence for the
real `\d`/`\b`/`int`), the Number Normalizer is idempotent: a second
application changes nothing, because the first pass leaves no letter-digit
adjacency and no `\b`-bounded digit run. -/
theorem c9_idempotent (isDig isWord : Char → Bool) (dval : List Char → Nat)
    (hF : FaithfulClasses isDig isWord) (s : String) :
    traducirNum isDig isWord dval (traducirNum isDig isWord dval s) =
      traducirNum isDig isWord dval s := by
  have hchain := traducir_chain hF dval s
  have h1 : sepLetraDigito isDig (traducirNum isDig isWord dval s).data =
      (traducirNum isDig isWord dval s).data :=
    sep_id (ldPair isDig) _ (chain_ld_of_mix hchain)
  have h2 : sepDigitoLetra isDig (traducirNum isDig isWord dval s).data =
      (traducirNum isDig isWord dval s).data :=
    sep_id (dlPair isDig) _ (chain_dl_of_mix hchain)
  show String.mk (rnAux isDig isWord dval false none
      (sepDigitoLetra isDig (sepLetraDigito isDig
        (traducirNum isDig isWord dval s).data))) =
    traducirNum isDig isWord dval s
  rw [h1, h2, rn_id_aux isDig isWord dval
    (traducirNum isDig isWord dval s).data.length _ none le_rfl
    (traducir_nobounded hF dval s)]

/-- Witness for C9 at the ASCII instantiation and a concrete input. -/
theorem c9_idempotent_witness :
    FaithfulClasses Char.isDigit isWordChar ∧
    traducirNum Char.isDigit isWordChar digitsVal
        (traducirNum Char.isDigit isWordChar digitsVal "v2 del modelo") =
      traducirNum Char.isDigit isWordChar digitsVal "v2 del modelo" :=
  ⟨faithful_ascii,
   c9_idempotent Char.isDigit isWordChar digitsVal faithful_ascii "v2 del modelo"⟩
/-! ## Lemmas for the `infer` text shaping -/

/-- `Char.ofNat` on a valid code point round-trips through `toNat`. -/
theorem toNat_ofNat_valid (n : Nat) (h : n.isValidChar) :
    (Char.ofNat n).toNat = n := by
  rw [Char.ofNat, dif_pos h]
  rfl

/-- `isUpper` through `toNat`. -/
theorem char_isUpper_iff (c : Char) :
    c.isUpper = true ↔ 65 ≤ c.toNat ∧ c.toNat ≤ 90 := by
  have e65 : (UInt32.toBitVec 65).toNat = 65 := rfl
  have e90 : (UInt32.toBitVec 90).toNat = 90 := rfl
  simp only [Char.isUpper, Bool.and_eq_true, decide_eq_true_eq, GE.ge,
    UInt32.le_def, BitVec.le_def, e65, e90, Char.toNat, UInt32.toNat]

/-- Lowercasing never yields an uppercase ASCII letter. -/
theorem lowerChar_not_upper (c : Char) : (lowerChar c).isUpper = false := by
  rw [lowerChar, Char.toLower]
  by_cases h : c.toNat ≥ 65 ∧ c.toNat ≤ 90
  · rw [if_pos h]
    have hv : (c.toNat + 32).isValidChar := by
      left
      omega
    rw [Bool.eq_false_iff]
    intro hu
    rw [char_isUpper_iff, toNat_ofNat_valid _ hv] at hu
    omega
  · rw [if_neg h]
    rw [Bool.eq_false_iff]
    intro hu
    rw [char_isUpper_iff] at hu
    exact h ⟨hu.1, hu.2⟩

/-- A suffix stays a suffix after consing on the left. -/
theorem suffix_cons_of {s t : List Char} (a : Char) (h : s <:+ t) :
    s <:+ a :: t :=
  h.trans (List.suffix_cons a t)

/-- A separating pass keeps a trailing two-character suffix whose pair the
pattern does not match. -/
theorem sep_ends (p : Char → Char → Bool) (c1 c2 : Char) (hp : p c1 c2 = false) :
    ∀ (n : Nat) (l : List Char), l.length ≤ n →
      [c1, c2] <:+ sepAdjacent p (l ++ [c1, c2]) := by
  intro n
  induction n with
  | zero =>
    intro l hl
    obtain rfl : l = [] := List.length_eq_zero.mp (Nat.le_zero.mp hl)
    rw [List.nil_append, sepAdjacent, if_neg (by simp [hp])]
    exact List.suffix_refl _
  | succ n ih =>
    intro l hl
    cases l with
    | nil =>
      rw [List.nil_append, sepAdjacent, if_neg (by simp [hp])]
      exact List.suffix_refl _
    | cons z l' =>
      cases l' with
      | nil =>
        show [c1, c2] <:+ sepAdjacent p (z :: c1 :: [c2])
        rw [sepAdjacent]
        split
        · exact suffix_cons_of z (suffix_cons_of ' ' (List.suffix_refl _))
        · exact suffix_cons_of z (ih [] (by simp))
      | cons y l'' =>
        show [c1, c2] <:+ sepAdjacent p (z :: y :: (l'' ++ [c1, c2]))
        rw [sepAdjacent]
        have hl'' : l''.length ≤ n := by
          simp only [List.length_cons] at hl; omega
        have hyl : (y :: l'').length ≤ n := by
          simp only [List.length_cons] at hl ⊢; omega
        split
        · exact suffix_cons_of z (suffix_cons_of ' '
            (suffix_cons_of y (ih l'' hl'')))
        · exact suffix_cons_of z (ih (y :: l'') hyl)

/-- `dropWhile isDigit` distributes over a trailing `". "`. -/
theorem dropWhile_append_dot (rest : List Char) :
    (rest ++ ['.', ' ']).dropWhile Char.isDigit =
      rest.dropWhile Char.isDigit ++ ['.', ' '] := by
  induction rest with
  | nil => decide
  | cons a t ih =>
    by_cases ha : a.isDigit
    · simp [List.dropWhile_cons, ha, ih]
    · simp [List.dropWhile_cons, ha]

/-- The `\b\d+\b` pass keeps a trailing `". "`. -/
theorem rn_ends :
    ∀ (n : Nat) (l : List Char) (prev : Option Char), l.length ≤ n →
      ['.', ' '] <:+
        rnAux Char.isDigit isWordChar digitsVal false prev (l ++ ['.', ' ']) := by
  intro n
  induction n with
  | zero =>
    intro l prev hl
    obtain rfl : l = [] := List.length_eq_zero.mp (Nat.le_zero.mp hl)
    rw [List.nil_append,
      rn_nodigit_id Char.isDigit isWordChar digitsVal prev _ (by decide)]
  | succ n ih =>
    intro l prev hl
    cases l with
    | nil =>
      rw [List.nil_append,
        rn_nodigit_id Char.isDigit isWordChar digitsVal prev _ (by decide)]
    | cons c rest =>
      have hrest : rest.length ≤ n := by
        simp only [List.length_cons] at hl; omega
      show ['.', ' '] <:+
        rnAux Char.isDigit isWordChar digitsVal false prev (c :: (rest ++ ['.', ' ']))
      by_cases hcond : (c.isDigit && !isWordOpt isWordChar prev) = true
      · by_cases hb : boundaryOk isWordChar
            ((rest ++ ['.', ' ']).dropWhile Char.isDigit) = true
        · have hout : rnAux Char.isDigit isWordChar digitsVal false prev
                (c :: (rest ++ ['.', ' '])) =
              (num2words_es (digitsVal
                  (c :: (rest ++ ['.', ' ']).takeWhile Char.isDigit))).data
                ++ rnAux Char.isDigit isWordChar digitsVal false (some c)
                    ((rest ++ ['.', ' ']).dropWhile Char.isDigit) := by
            have e1 : rnAux Char.isDigit isWordChar digitsVal false prev
                (c :: (rest ++ ['.', ' '])) =
                (num2words_es (digitsVal
                    (c :: (rest ++ ['.', ' ']).takeWhile Char.isDigit))).data
                  ++ rnAux Char.isDigit isWordChar digitsVal true (some c)
                      (rest ++ ['.', ' ']) := by
              simp [rnAux, hcond, hb]
            rw [e1, rn_skip_eq Char.isDigit isWordChar digitsVal (some c) (some c) _]
          rw [hout, dropWhile_append_dot]
          exact (ih (rest.dropWhile Char.isDigit) (some c)
            (le_trans (List.dropWhile_suffix _).length_le hrest)).trans
            (List.suffix_append _ _)
        · have hout : rnAux Char.isDigit isWordChar digitsVal false prev
                (c :: (rest ++ ['.', ' '])) =
              c :: rnAux Char.isDigit isWordChar digitsVal false (some c)
                  (rest ++ ['.', ' ']) := by
            simp [rnAux, hcond, hb]
          rw [hout]
          exact suffix_cons_of c (ih rest (some c) hrest)
      · have hout : rnAux Char.isDigit isWordChar digitsVal false prev
            (c :: (rest ++ ['.', ' '])) =
            c :: rnAux Char.isDigit isWordChar digitsVal false (some c)
                (rest ++ ['.', ' ']) := by
          simp [rnAux, hcond]
        rw [hout]
        exact suffix_cons_of c (ih rest (some c) hrest)

/-- A true `endsDotSpace` check exposes the trailing `". "`. -/
theorem endsDotSpace_decomp {u : List Char} (h : endsDotSpace u = true) :
    ∃ a, u = a ++ ['.', ' '] := by
  rw [endsDotSpace] at h
  cases hrev : u.reverse with
  | nil => rw [hrev] at h; simp at h
  | cons x r1 =>
    cases r1 with
    | nil => rw [hrev] at h; simp at h
    | cons y r2 =>
      rw [hrev] at h
      simp only [Bool.and_eq_true, beq_iff_eq] at h
      obtain ⟨rfl, rfl⟩ := h
      refine ⟨r2.reverse, ?_⟩
      have : u = u.reverse.reverse := (List.reverse_reverse u).symm
      rw [this, hrev]
      simp

/-- The padded text starts with a space and ends with `". "`. -/
theorem pad_facts (l : List Char) :
    (padGenText l).head? = some ' ' ∧ ∃ a, padGenText l = a ++ ['.', ' '] := by
  rw [padGenText]
  set l1 := if l.head? = some ' ' then l else ' ' :: l with hl1
  have hhead : l1.head? = some ' ' := by
    rw [hl1]
    split
    · assumption
    · rfl
  by_cases he : endsDotSpace l1 = true
  · rw [if_pos he]
    exact ⟨hhead, endsDotSpace_decomp he⟩
  · rw [if_neg he]
    constructor
    · rw [List.head?_append, hhead]
      rfl
    · exact ⟨l1, rfl⟩

/-- The head of the scan output when the head of the input is not a digit. -/
theorem rn_head_eq (prev : Option Char) (l : List Char)
    (h : ∀ x ∈ l.head?, x.isDigit = false) :
    (rnAux Char.isDigit isWordChar digitsVal false prev l).head? = l.head? := by
  cases l with
  | nil => rfl
  | cons a t =>
    have ha := h a rfl
    simp [rnAux, ha]

/-- Characters of the `\b\d+\b` output: input characters or characters of
some Spanish spelling. -/
theorem rn_mem :
    ∀ (n : Nat) (l : List Char) (prev : Option Char) (c : Char), l.length ≤ n →
      c ∈ rnAux Char.isDigit isWordChar digitsVal false prev l →
        c ∈ l ∨ ∃ m, c ∈ (num2words_es m).data := by
  intro n
  induction n with
  | zero =>
    intro l prev c hl hc
    obtain rfl : l = [] := List.length_eq_zero.mp (Nat.le_zero.mp hl)
    simp [rnAux] at hc
  | succ n ih =>
    intro l prev c hl hc
    cases l with
    | nil => simp [rnAux] at hc
    | cons a rest =>
      have hrest : rest.length ≤ n := by
        simp only [List.length_cons] at hl; omega
      by_cases hcond : (a.isDigit && !isWordOpt isWordChar prev) = true
      · by_cases hb : boundaryOk isWordChar (rest.dropWhile Char.isDigit) = true
        · rw [show rnAux Char.isDigit isWordChar digitsVal false prev (a :: rest) =
              (num2words_es (digitsVal (a :: rest.takeWhile Char.isDigit))).data
                ++ rnAux Char.isDigit isWordChar digitsVal false (some a)
                    (rest.dropWhile Char.isDigit) by
            rw [show rnAux Char.isDigit isWordChar digitsVal false prev (a :: rest) =
                (num2words_es (digitsVal (a :: rest.takeWhile Char.isDigit))).data
                  ++ rnAux Char.isDigit isWordChar digitsVal true (some a) rest by
                simp [rnAux, hcond, hb],
              rn_skip_eq Char.isDigit isWordChar digitsVal (some a) (some a) rest]] at hc
          rcases List.mem_append.mp hc with hw | hz
          · exact .inr ⟨_, hw⟩
          · rcases ih (rest.dropWhile Char.isDigit) (some a) c
              (le_trans (List.dropWhile_suffix _).length_le hrest) hz with hm | hm
            · exact .inl (List.mem_cons.mpr (.inr ((List.dropWhile_suffix _).subset hm)))
            · exact .inr hm
        · rw [show rnAux Char.isDigit isWordChar digitsVal false prev (a :: rest) =
              a :: rnAux Char.isDigit isWordChar digitsVal false (some a) rest by
            simp [rnAux, hcond, hb]] at hc
          rcases List.mem_cons.mp hc with rfl | hc2
          · exact .inl (by simp)
          · rcases ih rest (some a) c hrest hc2 with hm | hm
            · exact .inl (List.mem_cons.mpr (.inr hm))
            · exact .inr hm
      · rw [show rnAux Char.isDigit isWordChar digitsVal false prev (a :: rest) =
            a :: rnAux Char.isDigit isWordChar digitsVal false (some a) rest by
          simp [rnAux, hcond]] at hc
        rcases List.mem_cons.mp hc with rfl | hc2
        · exact .inl (by simp)
        · rcases ih rest (some a) c hrest hc2 with hm | hm
          · exact .inl (List.mem_cons.mpr (.inr hm))
          · exact .inr hm

/-- C6.  The text handed to the voice-synthesis collaborator by `infer`
starts with a leading space, ends with ". ", and is the image of the Number
Normalizer (it is produced by applying `traducir_numero_a_texto` last). -/
theorem c6_synthesis_text_shape (s : String) :
    (infer_gen_text s).data.head? = some ' ' ∧
    (∃ a, (infer_gen_text s).data = a ++ ['.', ' ']) ∧
    ∃ u, infer_gen_text s = traducir_numero_a_texto u := by
  obtain ⟨hph, a, hpe⟩ := pad_facts s.data
  have hmh : ((padGenText s.data).map lowerChar).head? = some ' ' := by
    rw [List.head?_map, hph]
    rfl
  have hme : (padGenText s.data).map lowerChar = a.map lowerChar ++ ['.', ' '] := by
    rw [hpe, List.map_append]
    rfl
  refine ⟨?_, ?_, ⟨⟨(padGenText s.data).map lowerChar⟩, rfl⟩⟩
  · show (rnAux Char.isDigit isWordChar digitsVal false none
        (sepDigitoLetra Char.isDigit
          (sepLetraDigito Char.isDigit ((padGenText s.data).map lowerChar)))).head? =
      some ' '
    have hX : (sepDigitoLetra Char.isDigit
        (sepLetraDigito Char.isDigit ((padGenText s.data).map lowerChar))).head? =
        some ' ' := by
      rw [sepDigitoLetra, sep_head, sepLetraDigito, sep_head, hmh]
    rw [rn_head_eq none _ (fun x hx => by
      rw [hX] at hx
      obtain rfl : x = ' ' := by simpa using hx.symm
      decide), hX]
  · obtain ⟨t1, ht1⟩ := sep_ends (ldPair Char.isDigit) '.' ' ' (by decide)
      (a.map lowerChar).length (a.map lowerChar) le_rfl
    obtain ⟨t2, ht2⟩ := sep_ends (dlPair Char.isDigit) '.' ' ' (by decide)
      t1.length t1 le_rfl
    obtain ⟨t3, ht3⟩ := rn_ends t2.length t2 none le_rfl
    refine ⟨t3, ?_⟩
    show rnAux Char.isDigit isWordChar digitsVal false none
        (sepDigitoLetra Char.isDigit
          (sepLetraDigito Char.isDigit ((padGenText s.data).map lowerChar))) =
      t3 ++ ['.', ' ']
    rw [sepLetraDigito, hme, ← ht1, sepDigitoLetra, ← ht2]
    exact ht3.symm

/-- C10.  `infer` lowercases the whole reply after padding and before
number normalization, so the text passed to the synthesis collaborator
contains no uppercase ASCII letter. -/
theorem c10_lowercased (s : String) :
    infer_gen_text s = traducir_numero_a_texto ⟨(padGenText s.data).map lowerChar⟩ ∧
    ∀ c ∈ (infer_gen_text s).data, c.isUpper = false := by
  refine ⟨rfl, fun c hc => ?_⟩
  have hc' : c ∈ rnAux Char.isDigit isWordChar digitsVal false none
      (sepDigitoLetra Char.isDigit
        (sepLetraDigito Char.isDigit ((padGenText s.data).map lowerChar))) := hc
  rcases rn_mem _ _ none c le_rfl hc' with hmem | ⟨m, hw⟩
  · rcases sep_mem (dlPair Char.isDigit) _ c hmem with hmem2 | rfl
    · rcases sep_mem (ldPair Char.isDigit) _ c hmem2 with hmem3 | rfl
      · rcases List.mem_map.mp hmem3 with ⟨y, -, rfl⟩
        exact lowerChar_not_upper y
      · decide
    · decide
  · exact num2words_noupper hw

/-! ## Style Segment Parser lemmas -/

/-- Without any opening brace the splitter returns a single text token. -/
theorem splitTags_nobrace (acc : List Char) (l : List Char) (h : '\x7b' ∉ l) :
    splitTagsAux acc none l = [acc.reverse ++ l] := by
  induction l generalizing acc with
  | nil => simp [splitTagsAux]
  | cons c rest ih =>
    simp only [List.mem_cons, not_or] at h
    rw [splitTagsAux]
    rw [if_neg (fun he => h.1 he.symm)]
    rw [ih (c :: acc) h.2]
    simp

/-- C2.  The Style Segment Parser yields the (style, text) segments in
order: the spec's two examples, a tag immediately followed by another tag
still updates the current style, and on a tag-free script the whole
(trimmed) text forms one "Regular" segment (dropped when empty). -/
theorem c2_style_segments :
    parse_speechtypes_text "\x7balegre\x7d Hola \x7btriste\x7d adiós" =
        [⟨"alegre", "Hola"⟩, ⟨"triste", "adiós"⟩] ∧
    parse_speechtypes_text "sin estilo" = [⟨"Regular", "sin estilo"⟩] ∧
    parse_speechtypes_text "\x7balegre\x7d\x7btriste\x7d adiós" =
        [⟨"triste", "adiós"⟩] ∧
    ∀ s : String, '\x7b' ∉ s.data →
      parse_speechtypes_text s =
        (if (stripChars s.data).isEmpty then []
         else [⟨"Regular", ⟨stripChars s.data⟩⟩]) := by
  refine ⟨by decide, by decide, by decide, fun s h => ?_⟩
  rw [parse_speechtypes_text, splitTags, splitTags_nobrace [] s.data h]
  simp only [List.reverse_nil, List.nil_append]
  by_cases he : (stripChars s.data).isEmpty
  · simp [parseTokens, he]
  · simp [parseTokens, he]

/-- Witness for C2's tag-free clause at a concrete input that needs
trimming. -/
theorem c2_style_segments_witness :
    ('\x7b' ∉ ("  hola  " : String).data) ∧
    parse_speechtypes_text "  hola  " =
      (if (stripChars ("  hola  " : String).data).isEmpty then []
       else [⟨"Regular", ⟨stripChars ("  hola  " : String).data⟩⟩]) :=
  ⟨by decide, c2_style_segments.2.2.2 "  hola  " (by decide)⟩

/-! ## Conversation State lemmas -/

/-- `process_audio_input` either leaves the state untouched (soft failure)
or appends exactly one user/assistant message pair and one filled
transcript entry. -/
theorem process_cases (tr : String → String) (gen : List ChatMessage → String)
    (audio : Option String) (text : String) (h : List HistEntry)
    (c : List ChatMessage) :
    process_audio_input tr gen audio text h c = (h, c, "") ∨
    ∃ t2 r, process_audio_input tr gen audio text h c =
      (h ++ [(t2, some r)], (c ++ [⟨.user, t2⟩]) ++ [⟨.assistant, r⟩], "") := by
  unfold process_audio_input
  by_cases h1 : (audio.isNone && (stripChars text.data).isEmpty) = true
  · rw [if_pos h1]
    exact .inl rfl
  · rw [if_neg h1]
    cases audio with
    | none =>
      by_cases h2 : (stripChars text.data).isEmpty
      · exact .inl (by simp [h2])
      · simp only [h2, if_false]
        exact .inr ⟨text, gen (c ++ [⟨.user, text⟩]), by
          simp [List.dropLast_concat]⟩
    | some p =>
      by_cases h2 : (stripChars (tr p).data).isEmpty
      · exact .inl (by simp [h2])
      · simp only [h2, if_false]
        exact .inr ⟨tr p, gen (c ++ [⟨.user, tr p⟩]), by
          simp [List.dropLast_concat]⟩

/-- The reachable conversation states satisfy the strengthened invariant:
one leading system message, locked lengths, and every transcript entry
filled. -/
theorem conv_reachable_strong (h : List HistEntry) (c : List ChatMessage)
    (hr : ReachableConv h c) :
    beginsWithOneSystem c ∧ h.length = (c.length - 1) / 2 ∧
      ∀ e ∈ h, e.2 ≠ none := by
  induction hr with
  | init =>
    refine ⟨⟨rfl, by simp⟩, by simp [initial_conversation_state], by simp⟩
  | clear =>
    refine ⟨⟨rfl, by simp⟩, by simp [clear_conversation], by simp [clear_conversation]⟩
  | update p =>
    refine ⟨⟨rfl, by simp⟩, by simp [update_system_prompt], by simp [update_system_prompt]⟩
  | step tr gen audio text h0 c0 hr0 ih =>
    obtain ⟨ihb, ihl, ihf⟩ := ih
    rcases process_cases tr gen audio text h0 c0 with heq | ⟨t2, r, heq⟩
    · rw [heq]
      exact ⟨ihb, ihl, ihf⟩
    · rw [heq]
      cases c0 with
      | nil => exact absurd ihb (by simp [beginsWithOneSystem])
      | cons m ms =>
        refine ⟨⟨ihb.1, ?_⟩, ?_, ?_⟩
        · intro m' hm'
          simp only [List.append_eq, List.cons_append, List.mem_append,
            List.mem_cons, List.not_mem_nil, or_false] at hm'
          rcases hm' with (hm' | rfl) | rfl
          · exact ihb.2 m' hm'
          · exact (by decide : Role.user ≠ Role.system)
          · exact (by decide : Role.assistant ≠ Role.system)
        · simp only [List.length_append, List.length_cons, List.length_nil] at ihl ⊢
          omega
        · intro e he
          rcases List.mem_append.mp he with he0 | he1
          · exact ihf e he0
          · obtain rfl : e = (t2, some r) := by simpa using he1
            simp

/-- C3.  After every Conversation State operation, the conversation log
begins with exactly one system message, the transcript length equals
(log length − 1) / 2, and only the most recent transcript entry may have an
empty assistant text. -/
theorem c3_conversation_invariant (h : List HistEntry) (c : List ChatMessage)
    (hr : ReachableConv h c) : conv_invariant h c := by
  obtain ⟨hb, hl, hf⟩ := conv_reachable_strong h c hr
  exact ⟨hb, hl, fun e he => hf e (List.dropLast_subset _ he)⟩

/-- Witness for C3: the invariant after one completed turn from the initial
state. -/
theorem c3_conversation_invariant_witness :
    conv_invariant
      (process_audio_input (fun p => p) (fun _ => "claro") none "hola" []
        initial_conversation_state).1
      (process_audio_input (fun p => p) (fun _ => "claro") none "hola" []
        initial_conversation_state).2.1 :=
  c3_conversation_invariant _ _
    (.step (fun p => p) (fun _ => "claro") none "hola" [] initial_conversation_state .init)

/-- C4.  Completing a turn with no pending transcript entry fails with
`InvalidStateError` instead of corrupting state. -/
theorem c4_complete_turn_invalid (h : List HistEntry) (c : List ChatMessage)
    (r : String) (hp : hasPendingEntry h = false) :
    complete_turn h c r = .error .invalidState := by
  unfold complete_turn
  unfold hasPendingEntry at hp
  cases hgl : h.getLast? with
  | none => simp [hgl]
  | some e =>
    obtain ⟨u, ro⟩ := e
    cases ro with
    | none =>
      rw [hgl] at hp
      simp at hp
    | some v => simp [hgl]

/-- Witness for C4 on the empty transcript. -/
theorem c4_complete_turn_invalid_witness :
    hasPendingEntry ([] : List HistEntry) = false ∧
    complete_turn [] initial_conversation_state "hola" = .error .invalidState :=
  ⟨rfl, c4_complete_turn_invalid [] initial_conversation_state "hola" rfl⟩

/-- C5.  A turn request with blank text and no audio is a no-op: history
and Conversation State are returned unchanged and no error is reported. -/
theorem c5_empty_input_noop (tr : String → String)
    (gen : List ChatMessage → String) (text : String) (h : List HistEntry)
    (c : List ChatMessage) (he : (stripChars text.data).isEmpty = true) :
    process_audio_input tr gen none text h c = (h, c, "") := by
  unfold process_audio_input
  rw [if_pos (by simp [he])]

/-- Witness for C5 on whitespace-only text. -/
theorem c5_empty_input_noop_witness :
    (stripChars ("   " : String).data).isEmpty = true ∧
    process_audio_input (fun p => p) (fun _ => "resp") none "   " []
        initial_conversation_state =
      ([], initial_conversation_state, "") :=
  ⟨by decide, c5_empty_input_noop (fun p => p) (fun _ => "resp") "   " []
    initial_conversation_state (by decide)⟩

/-- `generate_audio_response` returns the transcript unchanged: its only
output of interest is the optional audio. -/
theorem gar_frame {α : Type} (synth : String → String → String → Bool → α)
    (h : List HistEntry) (ra : Option String) (rt : String) (rs : Bool) :
    (generate_audio_response synth h ra rt rs).1 = h := by
  unfold generate_audio_response
  repeat' split
  all_goals rfl

/-- C7.  Whatever the voice-synthesis collaborator does (succeed, decline,
or return any value at all), the textual turn stays intact: the transcript
and the conversation log coming out of the event chain are exactly the ones
`process_audio_input` produced, and `generate_audio_response` itself never
alters the transcript. -/
theorem c7_synthesis_frame {α : Type}
    (synth : String → String → String → Bool → α) (tr : String → String)
    (gen : List ChatMessage → String) (audio : Option String) (text : String)
    (h : List HistEntry) (c : List ChatMessage) (ra : Option String)
    (rt : String) (rs : Bool) :
    (generate_audio_response synth h ra rt rs).1 = h ∧
    (chat_turn tr gen synth audio text h c ra rt rs).1 =
      (process_audio_input tr gen audio text h c).1 ∧
    (chat_turn tr gen synth audio text h c ra rt rs).2.1 =
      (process_audio_input tr gen audio text h c).2.1 := by
  refine ⟨gar_frame synth h ra rt rs, ?_, rfl⟩
  show (generate_audio_response synth
      (process_audio_input tr gen audio text h c).1 ra rt rs).1 = _
  exact gar_frame synth _ ra rt rs

end Mnemosynth
